import Mathlib

/-!
A shallow embedding of the path-containment and request-routing layer of
`src/files.py` (class `SimpleFileBrowserHandler` plus its startup code).

Conventions of the embedding:

* An absolute POSIX path is a list of path segments (`AbsPath`); `[]` is the
  filesystem root `/`.  `Root` (the server's `self.server.root_path`, set once
  at startup from `Path(root).resolve()`) is such a segment list.
* The filesystem is a finite association list from absolute paths to nodes
  (directory, regular file with text content, or symlink with a literal
  target string), plus a separate permission-bits map written by the
  `POST /api/permissions` handler.  Lookup takes the first matching entry.
* `resolveGo` models `os.path.realpath(strict=False)` as used by
  `pathlib.Path.resolve()`: segments are processed left to right, `''` and
  `'.'` are skipped, `'..'` lexically pops the already-resolved prefix,
  symlink targets are spliced in (absolute targets restart at `/`), and a
  segment is looked up only after passing the embedded-null-byte check that
  `os.lstat` performs (a null byte raises `ValueError` in CPython).  The
  symlink-loop cutoff of `realpath` (which gives up and returns the
  remaining path unresolved) is modelled by a fuel counter; the fuel is
  large enough that it is only reached through symlink cycles.
* Kernel-level syscalls (`open(..., 'wb'/'w')`, `mkdir`, `rename`, `chmod`)
  check the whole argument for null bytes up front, resolve the path
  themselves (following symlinks; `rename` and `mkdir` do not follow a final
  symlink), and require every ancestor of the final path to be a directory.
* `pyUnquote` models `urllib.parse.unquote`: runs of `%XX` escapes are
  collected as bytes and decoded as UTF-8.  It is exact on ASCII escapes and
  well-formed UTF-8 runs; a malformed byte is replaced by U+FFFD
  (CPython's `errors='replace'` may merge several malformed bytes into one
  replacement character, a corner no theorem below exercises).
* `pathParts` models how `pathlib.PurePosixPath` parses a relative path
  string: split on `/`, drop empty segments and `'.'`, keep `'..'`.
* Strings model Python `str` values; `str.lower()` is modelled by
  `String.toLower`, which agrees with Python on ASCII names.
-/

namespace FilesPy

/-- A path segment. -/
abbrev Seg := String

/-- An absolute POSIX path as its list of segments; `[]` is `/`. -/
abbrev AbsPath := List Seg

/-- The null character, `'\x00'` (rejected by every CPython os call). -/
def nulChar : Char := Char.ofNat 0

/-- A filesystem node: directory, regular file with text content, or a
symbolic link holding its literal target string. -/
inductive Node where
  | dir : Node
  | file (content : String) : Node
  | symlink (target : String) : Node
deriving DecidableEq, Repr

/-- The filesystem: an association list of absolute paths to nodes (first
match wins), plus the permission-bit map written by `os.chmod`. -/
structure FS where
  entries : List (AbsPath × Node)
  modes : List (AbsPath × Nat)
deriving DecidableEq, Repr

/-- First-match lookup of the node at an absolute path. -/
def FS.lookup (fs : FS) (p : AbsPath) : Option Node :=
  List.lookup p fs.entries

/-- Install (create or overwrite) a node at a path. -/
def FS.setNode (fs : FS) (p : AbsPath) (nd : Node) : FS :=
  { fs with entries := (p, nd) :: fs.entries }

/-- The symlink target at a path, if the path holds a symlink. -/
def symlinkAt (fs : FS) (p : AbsPath) : Option String :=
  match fs.lookup p with
  | some (.symlink t) => some t
  | _ => none

/-- `fs` holds no symlink anywhere. -/
def noSymlinks (fs : FS) : Bool :=
  fs.entries.all fun e =>
    match e.2 with
    | .symlink _ => false
    | _ => true

/-- Does the path denote an existing directory?  `[]` (the filesystem root
`/`) always does. -/
def isDirAt (fs : FS) (p : AbsPath) : Bool :=
  match p with
  | [] => true
  | _ => fs.lookup p == some .dir

/-- Every proper ancestor of `p` is an existing directory (what the kernel
checks while walking a fully resolved path). -/
def ancestorsAreDirs (fs : FS) (p : AbsPath) : Bool :=
  (List.range p.length).all fun i => isDirAt fs (p.take i)

/-- Some segment of the path contains a null byte. -/
def pathHasNul (p : AbsPath) : Bool :=
  p.any fun s => s.data.contains nulChar

/-- Render an absolute path the way `str(Path)` does. -/
def pathStr (p : AbsPath) : String :=
  "/" ++ String.intercalate "/" p

/-- Split a character list on `'/'`. -/
def splitSlashChars : List Char → List (List Char)
  | [] => [[]]
  | c :: rest =>
    if c = '/' then [] :: splitSlashChars rest
    else
      match splitSlashChars rest with
      | g :: gs => (c :: g) :: gs
      | [] => [[c]]

/-- `pathlib.PurePosixPath` parsing of a path string into segments: split on
`/`, drop empty segments and `'.'`, keep `'..'`.  Leading slashes only
produce empty segments, so this also absorbs the `lstrip('/')` the source
applies before joining onto the root. -/
def pathParts (s : String) : List Seg :=
  ((splitSlashChars s.data).map fun l => String.mk l).filter fun t =>
    ¬(t = "" ∨ t = ".")

/-- `PurePosixPath(s).name`: the last parsed segment, `''` when there is
none.  Note `PurePosixPath('x/..').name = '..'`. -/
def pyName (s : String) : String :=
  (pathParts s).getLast?.getD ""

/-- Does the path string start with `'/'`? -/
def strIsAbs (s : String) : Bool :=
  s.data.head? == some '/'

/-- `pathlib` `/` join of a base path and a string: an absolute right operand
replaces the base entirely. -/
def pyJoin (base : AbsPath) (s : String) : AbsPath :=
  if strIsAbs s then pathParts s else base ++ pathParts s

/-- The value of a hex digit, if the character is one. -/
def hexVal (c : Char) : Option Nat :=
  if '0' ≤ c ∧ c ≤ '9' then some (c.toNat - 48)
  else if 'a' ≤ c ∧ c ≤ 'f' then some (c.toNat - 87)
  else if 'A' ≤ c ∧ c ≤ 'F' then some (c.toNat - 55)
  else none

/-- Is the byte a UTF-8 continuation byte? -/
def isCont (b : Nat) : Bool := 128 ≤ b ∧ b ≤ 191

/-- The replacement character U+FFFD. -/
def replChar : Char := Char.ofNat 0xFFFD

/-- Decode a byte list as UTF-8, replacing malformed bytes by U+FFFD (see the
header note on fidelity). -/
def utf8Replace : List Nat → List Char
  | [] => []
  | b :: rest =>
    if b < 128 then Char.ofNat b :: utf8Replace rest
    else if 194 ≤ b ∧ b ≤ 223 then
      match rest with
      | b2 :: rest2 =>
        if isCont b2 then Char.ofNat ((b - 192) * 64 + (b2 - 128)) :: utf8Replace rest2
        else replChar :: utf8Replace (b2 :: rest2)
      | [] => [replChar]
    else if 224 ≤ b ∧ b ≤ 239 then
      match rest with
      | b2 :: b3 :: rest3 =>
        if (if b = 224 then 160 ≤ b2 ∧ b2 ≤ 191
            else if b = 237 then 128 ≤ b2 ∧ b2 ≤ 159
            else isCont b2 = true) ∧ isCont b3 = true then
          Char.ofNat ((b - 224) * 4096 + (b2 - 128) * 64 + (b3 - 128)) :: utf8Replace rest3
        else replChar :: utf8Replace (b2 :: b3 :: rest3)
      | [b2] => replChar :: utf8Replace [b2]
      | [] => [replChar]
    else if 240 ≤ b ∧ b ≤ 244 then
      match rest with
      | b2 :: b3 :: b4 :: rest4 =>
        if (if b = 240 then 144 ≤ b2 ∧ b2 ≤ 191
            else if b = 244 then 128 ≤ b2 ∧ b2 ≤ 143
            else isCont b2 = true) ∧ isCont b3 = true ∧ isCont b4 = true then
          Char.ofNat ((b - 240) * 262144 + (b2 - 128) * 4096 + (b3 - 128) * 64 + (b4 - 128))
            :: utf8Replace rest4
        else replChar :: utf8Replace (b2 :: b3 :: b4 :: rest4)
      | [b2, b3] => replChar :: utf8Replace [b2, b3]
      | [b2] => replChar :: utf8Replace [b2]
      | [] => [replChar]
    else replChar :: utf8Replace rest

/-- `urllib.parse.unquote`, one pass over the characters: maximal runs of
`%XX` escapes are accumulated (second argument, reversed) and flushed through
the UTF-8 decoder; a `%` not followed by two hex digits stays literal. -/
def pyUnquoteAux : List Char → List Nat → List Char
  | [], pend => utf8Replace pend.reverse
  | c :: rest, pend =>
    if c = '%' then
      match rest with
      | a :: b :: rest2 =>
        match hexVal a, hexVal b with
        | some ha, some hb => pyUnquoteAux rest2 ((16 * ha + hb) :: pend)
        | _, _ => utf8Replace pend.reverse ++ c :: pyUnquoteAux (a :: b :: rest2) []
      | [a] => utf8Replace pend.reverse ++ c :: pyUnquoteAux [a] []
      | [] => utf8Replace pend.reverse ++ [c]
    else utf8Replace pend.reverse ++ c :: pyUnquoteAux rest []

/-- `urllib.parse.unquote` on a string. -/
def pyUnquote (s : String) : String :=
  String.mk (pyUnquoteAux s.data [])

/-- The decoded virtual path `translate_path_safe` works on: the query path
with a `/` prepended when missing, then percent-decoded (the source's
`q = qpath if qpath.startswith('/') else '/' + qpath; q = unquote(q)`). -/
def decodedPath (qpath : String) : String :=
  pyUnquote (if strIsAbs qpath then qpath else "/" ++ qpath)

/-- The errors of the embedding; OS errors carry the path their CPython
message would show. -/
inductive Err where
  | outsideRoot : Err
  | valueError : Err
  | notFound (p : String) : Err
  | fileExists (p : String) : Err
  | isADirectory (p : String) : Err
  | notADirectory (p : String) : Err
  | dirNotEmpty (p : String) : Err
  | tooManyLinks (p : String) : Err
  | invalidArg (p : String) : Err
  | destExists (p : String) : Err
deriving DecidableEq, Repr

/-- `os.path.realpath(strict=False)` on the segments `rest`, with `cur` the
already-resolved absolute prefix.  Fuel models the symlink-loop cutoff: when
it runs out the remaining segments are appended unresolved, exactly what
`realpath` does when it detects a symlink cycle. -/
def resolveGo (fs : FS) : Nat → AbsPath → List Seg → Except Err AbsPath
  | 0, cur, rest => .ok (cur ++ rest)
  | _ + 1, cur, [] => .ok cur
  | n + 1, cur, name :: rest =>
    if name = "" ∨ name = "." then resolveGo fs n cur rest
    else if name = ".." then resolveGo fs n cur.dropLast rest
    else if name.data.contains nulChar then .error .valueError
    else
      match symlinkAt fs (cur ++ [name]) with
      | some t => resolveGo fs n (if strIsAbs t then [] else cur) (pathParts t ++ rest)
      | none => resolveGo fs n (cur ++ [name]) rest

/-- Canonicalize an absolute path (as `Path.resolve()` / the kernel's own
walk do), starting from `/`. -/
def resolvePath (fs : FS) (p : AbsPath) : Except Err AbsPath :=
  resolveGo fs (p.length + 64) [] p

/-- `SimpleFileBrowserHandler.translate_path_safe`: prepend `/` when missing,
percent-decode, strip leading slashes, join onto the root, `resolve()`, and
require the result to satisfy `target.relative_to(root)` — which succeeds
exactly when the root's segments are a prefix of the target's.  On failure of
that check the source raises `PermissionError('Path outside root')`; an
embedded null byte makes `resolve()` itself raise `ValueError`, which the
source does not catch. -/
def translate_path_safe (root : AbsPath) (fs : FS) (qpath : String) : Except Err AbsPath :=
  match resolvePath fs (root ++ pathParts (decodedPath qpath)) with
  | .error e => .error e
  | .ok t => if root.isPrefixOf t then .ok t else .error .outsideRoot

/-- The last segment of a path (`PurePosixPath.name` of an already-parsed
path), `''` for `/`. -/
def lastSeg (p : AbsPath) : String :=
  p.getLast?.getD ""

/-- Segments a syscall treats as a directory reference when final. -/
def specialSeg (s : Seg) : Bool :=
  s = "" || s = "." || s = ".."

/-- Kernel resolution for a syscall that does not follow a final symlink
(`rename`, `mkdir`): the dirname is fully resolved, the last segment is kept
literal; a special last segment (`''`, `'.'`, `'..'`) denotes a directory, so
the whole path is resolved. -/
def resolveNoFollow (fs : FS) (p : AbsPath) : Except Err AbsPath :=
  if p = [] then .ok []
  else if specialSeg (lastSeg p) then resolvePath fs p
  else
    match resolvePath fs p.dropLast with
    | .error e => .error e
    | .ok d => .ok (d ++ [lastSeg p])

/-- `open(path, 'wb')` / `open(path, 'w')`: reject null bytes, resolve
(following symlinks — which is how an upload can write through a symlink),
refuse directories, and require every ancestor to be an existing directory.
On success: the new filesystem and the resolved path actually written. -/
def writeFileAt (fs : FS) (p : AbsPath) (content : String) : Except Err (FS × AbsPath) :=
  if pathHasNul p then .error .valueError
  else
    match resolvePath fs p with
    | .error e => .error e
    | .ok w =>
      if w = [] then .error (.isADirectory (pathStr p))
      else
        match fs.lookup w with
        | some .dir => .error (.isADirectory (pathStr p))
        | some (.symlink _) => .error (.tooManyLinks (pathStr p))
        | _ =>
          if ancestorsAreDirs fs w then .ok (fs.setNode w (.file content), w)
          else .error (.notFound (pathStr p))

/-- `(base / name).mkdir(parents=False, exist_ok=False)`: the target must not
exist (a dangling final symlink still gives `FileExistsError`), its parent
must be an existing directory. -/
def mkdirAt (fs : FS) (p : AbsPath) : Except Err FS :=
  if pathHasNul p then .error .valueError
  else
    match resolveNoFollow fs p with
    | .error e => .error e
    | .ok t =>
      if t = [] then .error (.fileExists (pathStr p))
      else
        match fs.lookup t with
        | some _ => .error (.fileExists (pathStr p))
        | none =>
          if ancestorsAreDirs fs t then .ok (fs.setNode t .dir)
          else .error (.notFound (pathStr p))

/-- Remove a path and everything below it (`shutil.rmtree`). -/
def removeTree (fs : FS) (p : AbsPath) : FS :=
  { fs with entries := fs.entries.filter fun e => ¬ p.isPrefixOf e.1 }

/-- Remove one entry (`Path.unlink`). -/
def removeEntry (fs : FS) (p : AbsPath) : FS :=
  { fs with entries := fs.entries.filter fun e => e.1 ≠ p }

/-- Does a directory have any entry strictly below it? -/
def hasChildAt (fs : FS) (p : AbsPath) : Bool :=
  fs.entries.any fun e => p.isPrefixOf e.1 && e.1 ≠ p

/-- How one entry moves when the subtree at `rs` is renamed to `rd`: the
entry at `rd` itself is overwritten (dropped), entries under `rs` are
re-rooted, others stay. -/
def moveEntry (rs rd : AbsPath) (e : AbsPath × Node) : Option (AbsPath × Node) :=
  if e.1 == rd then none
  else if rs.isPrefixOf e.1 then some (rd ++ e.1.drop rs.length, e.2)
  else some e

/-- Move the subtree rooted at `rs` to `rd`, overwriting what was at `rd`. -/
def moveSubtree (fs : FS) (rs rd : AbsPath) : FS :=
  { fs with entries := fs.entries.filterMap (moveEntry rs rd) }

/-- POSIX `os.rename(src, dst)`: final symlinks are not followed; an existing
non-directory `dst` is silently replaced; a directory may only replace an
empty directory.  Null bytes anywhere raise `ValueError` up front. -/
def renameAt (fs : FS) (src dst : AbsPath) : Except Err FS :=
  if pathHasNul src || pathHasNul dst then .error .valueError
  else
    match resolveNoFollow fs src with
    | .error e => .error e
    | .ok rs =>
      match resolveNoFollow fs dst with
      | .error e => .error e
      | .ok rd =>
        if rs = [] then .error (.invalidArg (pathStr src))
        else if rd = [] then .error (.invalidArg (pathStr dst))
        else
          match fs.lookup rs with
          | none => .error (.notFound (pathStr src))
          | some srcNode =>
            if rs = rd then .ok fs
            else if ancestorsAreDirs fs rd = false then .error (.notFound (pathStr dst))
            else
              match srcNode, fs.lookup rd with
              | .dir, tgt =>
                if rs.isPrefixOf rd then .error (.invalidArg (pathStr dst))
                else
                  match tgt with
                  | none => .ok (moveSubtree fs rs rd)
                  | some .dir =>
                    if hasChildAt fs rd then .error (.dirNotEmpty (pathStr dst))
                    else .ok (moveSubtree fs rs rd)
                  | some _ => .error (.notADirectory (pathStr dst))
              | _, some .dir => .error (.isADirectory (pathStr dst))
              | _, _ => .ok (moveSubtree fs rs rd)

/-- `shutil.move(src, dst)`: when `dst` is an existing directory the source
is moved into it under its own basename, refusing an existing target of that
name; otherwise a plain rename. -/
def shutilMove (fs : FS) (sp tp : AbsPath) : Except Err FS :=
  if isDirAt fs tp then
    let rd := tp ++ pathParts (lastSeg sp)
    if fs.lookup rd != none then .error (.destExists (pathStr rd))
    else renameAt fs sp rd
  else renameAt fs sp tp

/-- `os.chmod` (follows symlinks, target must exist) recording the bits in
the mode map.  The subsequent `os.chown` attempt is a no-op here because the
source swallows its `KeyError`/`PermissionError` and ownership is outside
this model. -/
def chmodAt (fs : FS) (p : AbsPath) (bits : Nat) : Except Err FS :=
  if pathHasNul p then .error .valueError
  else
    match resolvePath fs p with
    | .error e => .error e
    | .ok w =>
      match fs.lookup w with
      | none => if w = [] then .ok { fs with modes := (w, bits) :: fs.modes }
                else .error (.notFound (pathStr p))
      | some _ => .ok { fs with modes := (w, bits) :: fs.modes }

/-- A hex digit character, lowercase letters (what `json.dumps` emits). -/
def hexDigit (n : Nat) : Char :=
  if n < 10 then Char.ofNat (48 + n) else Char.ofNat (87 + n)

/-- `\uXXXX`. -/
def u4 (n : Nat) : List Char :=
  ['\\', 'u', hexDigit (n / 4096 % 16), hexDigit (n / 256 % 16),
   hexDigit (n / 16 % 16), hexDigit (n % 16)]

/-- How `json.dumps` (default `ensure_ascii=True`) escapes one character. -/
def jsonEscapeChar (c : Char) : List Char :=
  if c = '"' then ['\\', '"']
  else if c = '\\' then ['\\', '\\']
  else if c = '\n' then ['\\', 'n']
  else if c = '\r' then ['\\', 'r']
  else if c = '\t' then ['\\', 't']
  else if c = Char.ofNat 8 then ['\\', 'b']
  else if c = Char.ofNat 12 then ['\\', 'f']
  else if c.toNat < 32 then u4 c.toNat
  else if c.toNat < 127 then [c]
  else if c.toNat ≤ 0xFFFF then u4 c.toNat
  else u4 (0xD800 + (c.toNat - 0x10000) / 1024) ++ u4 (0xDC00 + (c.toNat - 0x10000) % 1024)

/-- A JSON string literal for `s`, as `json.dumps` renders it. -/
def jsonStr (s : String) : String :=
  "\"" ++ String.mk (s.data.foldr (fun c acc => jsonEscapeChar c ++ acc) []) ++ "\""

/-- `json.dumps({'error': msg})`. -/
def errBody (msg : String) : String :=
  "\x7b\"error\": " ++ jsonStr msg ++ "\x7d"

/-- `json.dumps({'ok': True})`. -/
def okBody : String := "\x7b\"ok\": true\x7d"

/-- `json.dumps({'saved': n})`. -/
def savedBody (n : Nat) : String :=
  "\x7b\"saved\": " ++ toString n ++ "\x7d"

/-- A path wrapped in the single quotes CPython's OSError messages use. -/
def quoted (p : String) : String :=
  "\x27" ++ p ++ "\x27"

/-- `str(e)` for each error, as CPython renders it (OSError messages carry
the offending path; two-path variants are abbreviated to the path shown
first). -/
def pyStr : Err → String
  | .outsideRoot => "Path outside root"
  | .valueError => "embedded null byte"
  | .notFound p => "[Errno 2] No such file or directory: " ++ quoted p
  | .fileExists p => "[Errno 17] File exists: " ++ quoted p
  | .isADirectory p => "[Errno 21] Is a directory: " ++ quoted p
  | .notADirectory p => "[Errno 20] Not a directory: " ++ quoted p
  | .dirNotEmpty p => "[Errno 39] Directory not empty: " ++ quoted p
  | .tooManyLinks p => "[Errno 40] Too many levels of symbolic links: " ++ quoted p
  | .invalidArg p => "[Errno 22] Invalid argument: " ++ quoted p
  | .destExists p => "Destination path " ++ quoted p ++ " already exists"

/-- An HTTP response: status code and body. -/
structure Resp where
  code : Nat
  body : String
deriving DecidableEq, Repr

/-- The `{'error': str(e)}` 400 response every POST handler's `except` clause
produces. -/
def errResp (e : Err) : Resp := ⟨400, errBody (pyStr e)⟩

/-- The `{'ok': True}` 200 response. -/
def okResp : Resp := ⟨200, okBody⟩

/-- Names of the immediate children of a directory (what `os.listdir`
returns, one name each, in storage order). -/
def childNames (fs : FS) (d : AbsPath) : List String :=
  (((fs.entries.map Prod.fst).filter fun p =>
      d.isPrefixOf p && p.length = d.length + 1).map lastSeg).dedup

/-- `str.lower()` (agrees with Python on ASCII names; Python additionally
lowercases non-ASCII letters). -/
def pyLower (s : String) : String :=
  String.mk (s.data.map Char.toLower)

/-- Code-point lexicographic `≤` on character lists — how Python compares
strings. -/
def listCharLeB : List Char → List Char → Bool
  | [], _ => true
  | _ :: _, [] => false
  | a :: as, b :: bs =>
    if a.toNat = b.toNat then listCharLeB as bs else decide (a.toNat < b.toNat)

/-- The sort key order of `sorted(..., key=lambda s: s.lower())`: compare the
lowercased names, code-point lexicographically. -/
def lowLe (a b : String) : Prop :=
  listCharLeB (pyLower a).data (pyLower b).data = true

instance : DecidableRel lowLe := fun _ _ => instDecidableEqBool _ _

/-- The listing order: children sorted case-insensitively ascending (a stable
sort on the lowercased name, as Python's `sorted` is; `insertionSort` is such
a stable sort). -/
def sortedNames (fs : FS) (d : AbsPath) : List String :=
  List.insertionSort lowLe (childNames fs d)

/-- `GET /api/list`: translate (403 on `PermissionError`), 404 unless the
target is an existing directory, else the sorted child names (the per-child
metadata dict is beside the point here and elided). -/
def listApi (root : AbsPath) (fs : FS) (p : String) : Except Resp (List String) :=
  match translate_path_safe root fs p with
  | .error _ => .error ⟨403, errBody "forbidden"⟩
  | .ok t =>
    if isDirAt fs t then .ok (sortedNames fs t)
    else .error ⟨404, errBody "not found"⟩

/-- Python universal-newlines translation, applied by text-mode reads with
the default `newline=None`: `'\r\n'` and a lone `'\r'` both become `'\n'`.
(Text-mode writes translate `'\n'` to `os.linesep`, which on POSIX is
`'\n'`, so writing stores the content verbatim.) -/
def univNewlines : List Char → List Char
  | [] => []
  | [c] => if c = '\r' then ['\n'] else [c]
  | c :: d :: rest =>
    if c = '\r' then
      if d = '\n' then '\n' :: univNewlines rest
      else '\n' :: univNewlines (d :: rest)
    else c :: univNewlines (d :: rest)

/-- `GET /api/edit`: translate (any exception → 500), 404 unless the target
exists and is not a directory, else the file's UTF-8 text as
`open(target, 'r', encoding='utf-8')` reads it — in universal-newlines
mode, so `'\r'` and `'\r\n'` in the stored content come back as `'\n'`.
Reading re-walks the resolved path the way `open` does. -/
def editApi (root : AbsPath) (fs : FS) (p : String) : Except Nat String :=
  match translate_path_safe root fs p with
  | .error _ => .error 500
  | .ok t =>
    match resolvePath fs t with
    | .error _ => .error 500
    | .ok w =>
      match fs.lookup w with
      | some (.file c) => .ok (String.mk (univNewlines c.data))
      | some .dir => .error 404
      | some (.symlink _) => .error 500
      | none => .error 404

/-- `POST /api/save`: translate, then overwrite the file as UTF-8 text. -/
def saveApi (root : AbsPath) (fs : FS) (p content : String) : FS × Resp :=
  match translate_path_safe root fs p with
  | .error e => (fs, errResp e)
  | .ok t =>
    match writeFileAt fs t content with
    | .ok (fs', _) => (fs', okResp)
    | .error e => (fs, errResp e)

/-- `POST /api/mkdir`: translate the parent, then `(base / name).mkdir()`. -/
def mkdirApi (root : AbsPath) (fs : FS) (p name : String) : FS × Resp :=
  match translate_path_safe root fs p with
  | .error e => (fs, errResp e)
  | .ok base =>
    match mkdirAt fs (pyJoin base name) with
    | .ok fs' => (fs', okResp)
    | .error e => (fs, errResp e)

/-- `POST /api/delete`: translate, `rmtree` a directory, `unlink` anything
else (unlink on a missing path raises `FileNotFoundError`, whose `str`
carries the absolute path). -/
def deleteApi (root : AbsPath) (fs : FS) (p : String) : FS × Resp :=
  match translate_path_safe root fs p with
  | .error e => (fs, errResp e)
  | .ok t =>
    if isDirAt fs t then (removeTree fs t, okResp)
    else
      match fs.lookup t with
      | none => (fs, errResp (.notFound (pathStr t)))
      | some _ => (removeEntry fs t, okResp)

/-- `POST /api/rename`: translate the path, then
`target.rename(target.parent / new)` — note the destination is never
containment-checked, and `pathlib` join replaces the parent entirely when
`new` is absolute. -/
def renameApi (root : AbsPath) (fs : FS) (p new : String) : FS × Resp :=
  match translate_path_safe root fs p with
  | .error e => (fs, errResp e)
  | .ok t =>
    match renameAt fs t (pyJoin t.dropLast new) with
    | .ok fs' => (fs', okResp)
    | .error e => (fs, errResp e)

/-- `POST /api/move`: translate both endpoints, then `shutil.move`. -/
def moveApi (root : AbsPath) (fs : FS) (src tgt : String) : FS × Resp :=
  match translate_path_safe root fs src with
  | .error e => (fs, errResp e)
  | .ok sp =>
    match translate_path_safe root fs tgt with
    | .error e => (fs, errResp e)
    | .ok tp =>
      match shutilMove fs sp tp with
      | .ok fs' => (fs', okResp)
      | .error e => (fs, errResp e)

/-- The per-source loop of `POST /api/move-multiple`: each source is
translated and moved in turn; the first failure aborts with 400, keeping the
moves already made. -/
def moveMultipleGo (root : AbsPath) (tp : AbsPath) : FS → List String → FS × Resp
  | fs, [] => (fs, okResp)
  | fs, s :: rest =>
    match translate_path_safe root fs s with
    | .error e => (fs, errResp e)
    | .ok sp =>
      match shutilMove fs sp (tp ++ pathParts (lastSeg sp)) with
      | .ok fs' => moveMultipleGo root tp fs' rest
      | .error e => (fs, errResp e)

/-- `POST /api/move-multiple`: translate the target, then move each source
into it under its own basename. -/
def moveMultipleApi (root : AbsPath) (fs : FS) (sources : List String) (tgt : String) :
    FS × Resp :=
  match translate_path_safe root fs tgt with
  | .error e => (fs, errResp e)
  | .ok tp => moveMultipleGo root tp fs sources

/-- One uploaded multipart `file` part. -/
structure Part where
  filename : String
  content : String
deriving DecidableEq, Repr

/-- Saving one uploaded part: skip parts with an empty filename, take
`Path(filename).name` as the safe name, join it to the destination folder
with `pathlib` `/`, and `open(dest, 'wb')`; any exception skips the part.
Returns the new filesystem and the resolved path written, if any. -/
def savePart (fs : FS) (folder : AbsPath) (part : Part) : FS × Option AbsPath :=
  if part.filename = "" then (fs, none)
  else
    match writeFileAt fs (pyJoin folder (pyName part.filename)) part.content with
    | .ok (fs', w) => (fs', some w)
    | .error _ => (fs, none)

/-- The upload loop over the parts, counting saved files. -/
def uploadGo (folder : AbsPath) : FS → List Part → FS × Nat
  | fs, [] => (fs, 0)
  | fs, part :: rest =>
    let r := savePart fs folder part
    let r2 := uploadGo folder r.1 rest
    (r2.1, r2.2 + if r.2.isSome then 1 else 0)

/-- `POST /api/upload`: translate the `path` field, but — unlike every other
handler — catch ANY resolution failure and fall back to the root directory
as the destination; then save each part, answering 400 only when nothing was
saved. -/
def uploadApi (root : AbsPath) (fs : FS) (pathField : String) (parts : List Part) :
    FS × Resp :=
  let folder :=
    match translate_path_safe root fs pathField with
    | .ok t => t
    | .error _ => root
  let r := uploadGo folder fs parts
  if r.2 = 0 then (r.1, ⟨400, errBody "no files uploaded"⟩)
  else (r.1, ⟨200, savedBody r.2⟩)

/-- One permission triple of the permissions form. -/
structure PermTriple where
  read : Bool
  write : Bool
  execute : Bool
deriving DecidableEq, Repr

/-- The owner/group/others permission sets of the permissions form. -/
structure PermSet where
  owner : PermTriple
  group : PermTriple
  others : PermTriple
deriving DecidableEq, Repr

/-- The mode bits the handler assembles from the form
(`S_IRUSR | ... | S_IXOTH`). -/
def permBits (ps : PermSet) : Nat :=
  (if ps.owner.read then 256 else 0) + (if ps.owner.write then 128 else 0) +
  (if ps.owner.execute then 64 else 0) + (if ps.group.read then 32 else 0) +
  (if ps.group.write then 16 else 0) + (if ps.group.execute then 8 else 0) +
  (if ps.others.read then 4 else 0) + (if ps.others.write then 2 else 0) +
  (if ps.others.execute then 1 else 0)

/-- `POST /api/permissions`: translate, `os.chmod`, ownership errors
swallowed. -/
def permsApi (root : AbsPath) (fs : FS) (p : String) (ps : PermSet) : FS × Resp :=
  match translate_path_safe root fs p with
  | .error e => (fs, errResp e)
  | .ok t =>
    match chmodAt fs t (permBits ps) with
    | .ok fs' => (fs', okResp)
    | .error e => (fs, errResp e)

/-- `dec.split(':', 1)[-1]`: everything after the first colon, or the whole
string when it has none. -/
def afterFirstColon (s : String) : String :=
  if s.data.contains ':' then String.mk ((s.data.dropWhile fun c => c != ':').drop 1)
  else s

/-- An Authorization credential after transport decoding: the scheme word
before the first space, and the base64-decoded UTF-8 credential text.  A
header that fails to split, base64-decode or UTF-8-decode is rejected by the
source's `except` clause and is modelled as an absent credential. -/
structure Credential where
  kind : String
  dec : String
deriving DecidableEq, Repr

/-- `SimpleFileBrowserHandler.authenticate`: no (or falsy, i.e. empty)
configured password accepts everything; otherwise the scheme must be `Basic`
and the decoded credential must equal the password, or have it as the part
after its first colon. -/
def authenticate (pwd : Option String) (cred : Option Credential) : Bool :=
  match pwd with
  | none => true
  | some p =>
    if p = "" then true
    else
      match cred with
      | none => false
      | some c =>
        if c.kind = "Basic" then (c.dec == p || afterFirstColon c.dec == p)
        else false

/-! ### Concrete fixtures used by the closed theorems below -/

/-- A root directory `/r` with nothing in it. -/
def fs0 : FS := ⟨[(["r"], .dir)], []⟩

/-- `/r` containing a symlink `link -> /out`, with `/out/secret.txt` outside
the root. -/
def fsLink : FS :=
  ⟨[(["r"], .dir), (["r", "link"], .symlink "/out"),
    (["out"], .dir), (["out", "secret.txt"], .file "S")], []⟩

/-- `/r/up` containing a symlink `evil.sh -> /out/evil.sh` pointing outside
the root. -/
def fsUp : FS :=
  ⟨[(["r"], .dir), (["r", "up"], .dir),
    (["r", "up", "evil.sh"], .symlink "/out/evil.sh"), (["out"], .dir)], []⟩

/-- `/r` containing files `a.txt` (content `AAA`) and `b.txt` (content
`BBB`). -/
def fs5 : FS :=
  ⟨[(["r"], .dir), (["r", "a.txt"], .file "AAA"), (["r", "b.txt"], .file "BBB")], []⟩

/-- `/r` containing `x.txt`/`y.txt`. -/
def fs5w : FS :=
  ⟨[(["r"], .dir), (["r", "x.txt"], .file "X1"), (["r", "y.txt"], .file "Y1")], []⟩

/-- `/r` containing `a.txt`, with a directory `/out` outside the root. -/
def fs6 : FS :=
  ⟨[(["r"], .dir), (["r", "a.txt"], .file "A"), (["out"], .dir)], []⟩

/-- `/r` containing `m.txt`. -/
def fs6w : FS :=
  ⟨[(["r"], .dir), (["r", "m.txt"], .file "M")], []⟩

/-- `/r` containing files `a.txt`, `B.txt` and directory `c`. -/
def fs8 : FS :=
  ⟨[(["r"], .dir), (["r", "c"], .dir), (["r", "B.txt"], .file "2"),
    (["r", "a.txt"], .file "1")], []⟩

/-- An all-false permission form. -/
def permNone : PermSet :=
  ⟨⟨false, false, false⟩, ⟨false, false, false⟩, ⟨false, false, false⟩⟩

/-! ### Order facts for the listing comparator -/

theorem listCharLeB_total : ∀ a b : List Char, listCharLeB a b = true ∨ listCharLeB b a = true
  | [], _ => .inl rfl
  | _ :: _, [] => .inr rfl
  | x :: xs, y :: ys => by
    by_cases h : x.toNat = y.toNat
    · simp only [listCharLeB, if_pos h, if_pos h.symm]
      exact listCharLeB_total xs ys
    · simp only [listCharLeB, if_neg h, if_neg (Ne.symm h), decide_eq_true_eq]
      omega

theorem listCharLeB_trans : ∀ a b c : List Char, listCharLeB a b = true →
    listCharLeB b c = true → listCharLeB a c = true
  | [], _, _, _, _ => rfl
  | _ :: _, [], _, h1, _ => by simp [listCharLeB] at h1
  | _ :: _, _ :: _, [], _, h2 => by simp [listCharLeB] at h2
  | x :: xs, y :: ys, z :: zs, h1, h2 => by
    simp only [listCharLeB] at h1 h2 ⊢
    by_cases hxy : x.toNat = y.toNat
    · rw [if_pos hxy] at h1
      by_cases hyz : y.toNat = z.toNat
      · rw [if_pos hyz] at h2
        rw [if_pos (hxy.trans hyz)]
        exact listCharLeB_trans xs ys zs h1 h2
      · rw [if_neg hyz] at h2
        have hz : y.toNat < z.toNat := of_decide_eq_true h2
        rw [if_neg (by omega), decide_eq_true_eq]
        omega
    · rw [if_neg hxy] at h1
      have hx : x.toNat < y.toNat := of_decide_eq_true h1
      by_cases hyz : y.toNat = z.toNat
      · rw [if_neg (by omega), decide_eq_true_eq]
        omega
      · rw [if_neg hyz] at h2
        have hz : y.toNat < z.toNat := of_decide_eq_true h2
        rw [if_neg (by omega), decide_eq_true_eq]
        omega

instance : IsTotal String lowLe :=
  ⟨fun a b => listCharLeB_total (pyLower a).data (pyLower b).data⟩

instance : IsTrans String lowLe := ⟨fun _ _ _ h1 h2 => listCharLeB_trans _ _ _ h1 h2⟩

/-! ### Helpers on Bool prefixes and path lists -/

theorem isPrefixOf_refl (l : List Seg) : l.isPrefixOf l = true := by
  induction l with
  | nil => rfl
  | cons a as ih => simp [List.isPrefixOf, ih]

theorem isPrefixOf_append (l t : List Seg) : l.isPrefixOf (l ++ t) = true := by
  induction l with
  | nil => simp [List.isPrefixOf]
  | cons a as ih => simp [List.isPrefixOf, ih]

theorem exists_of_isPrefixOf {l p : List Seg} (h : l.isPrefixOf p = true) :
    ∃ t, p = l ++ t := by
  induction l generalizing p with
  | nil => exact ⟨p, rfl⟩
  | cons a as ih =>
    cases p with
    | nil => simp [List.isPrefixOf] at h
    | cons b bs =>
      simp only [List.isPrefixOf, Bool.and_eq_true, beq_iff_eq] at h
      obtain ⟨t, ht⟩ := ih h.2
      exact ⟨t, by rw [h.1, List.cons_append, ht]⟩

theorem dropLast_append_single (l : List Seg) (a : Seg) : (l ++ [a]).dropLast = l := by
  simp

theorem lastSeg_append_single (l : List Seg) (a : Seg) : lastSeg (l ++ [a]) = a := by
  simp [lastSeg]

theorem pathHasNul_dropLast {p : AbsPath} (h : pathHasNul p = false) :
    pathHasNul p.dropLast = false := by
  simp only [pathHasNul, List.any_eq_false] at h ⊢
  exact fun s hs => h s ((List.dropLast_sublist p).subset hs)

/-! ### `splitSlashChars` and `pathParts` -/

theorem splitSlash_mem_no_slash {l : List Char} {g : List Char}
    (hg : g ∈ splitSlashChars l) : '/' ∉ g := by
  induction l generalizing g with
  | nil =>
    simp only [splitSlashChars, List.mem_singleton] at hg
    simp [hg]
  | cons c rest ih =>
    by_cases hc : c = '/'
    · rw [splitSlashChars, if_pos hc] at hg
      rcases List.mem_cons.mp hg with hg | hg
      · simp [hg]
      · exact ih hg
    · rw [splitSlashChars, if_neg hc] at hg
      rcases hsp : splitSlashChars rest with _ | ⟨g2, gs⟩
      · rw [hsp] at hg
        rcases List.mem_cons.mp hg with hg | hg
        · subst hg
          intro hmem
          exact hc (List.mem_singleton.mp hmem).symm
        · simp at hg
      · rw [hsp] at hg
        rcases List.mem_cons.mp hg with hg | hg
        · have hg2 : g2 ∈ splitSlashChars rest := by rw [hsp]; exact .head _
          subst hg
          intro hmem
          rcases List.mem_cons.mp hmem with h1 | h1
          · exact hc h1.symm
          · exact ih hg2 h1
        · exact ih (by rw [hsp]; exact .tail _ hg)

theorem splitSlash_of_mem {l : List Char} {c : Char} (hmem : c ∈ l) (hc : c ≠ '/') :
    ∃ g ∈ splitSlashChars l, c ∈ g := by
  induction l with
  | nil => simp at hmem
  | cons d rest ih =>
    by_cases hd : d = '/'
    · rw [splitSlashChars, if_pos hd]
      have hcr : c ∈ rest := by
        rcases List.mem_cons.mp hmem with h | h
        · exact absurd (h.trans hd) hc
        · exact h
      obtain ⟨g, hg, hcg⟩ := ih hcr
      exact ⟨g, .tail _ hg, hcg⟩
    · rw [splitSlashChars, if_neg hd]
      rcases List.mem_cons.mp hmem with h | h
      · rcases hsp : splitSlashChars rest with _ | ⟨g2, gs⟩
        · exact ⟨[d], .head _, by simp [h]⟩
        · exact ⟨d :: g2, .head _, by simp [h]⟩
      · obtain ⟨g, hg, hcg⟩ := ih h
        rcases hsp : splitSlashChars rest with _ | ⟨g2, gs⟩
        · rw [hsp] at hg; simp at hg
        · rw [hsp] at hg
          rcases List.mem_cons.mp hg with h2 | h2
          · exact ⟨d :: g2, .head _, by subst h2; exact .tail _ hcg⟩
          · exact ⟨g, .tail _ h2, hcg⟩

theorem splitSlash_no_slash {l : List Char} (h : '/' ∉ l) : splitSlashChars l = [l] := by
  induction l with
  | nil => rfl
  | cons c rest ih =>
    have hc : c ≠ '/' := fun e => h (e ▸ List.mem_cons_self c rest)
    have hr : '/' ∉ rest := fun e => h (.tail _ e)
    rw [splitSlashChars, if_neg hc, ih hr]

theorem mem_pathParts {s : String} {t : Seg} (ht : t ∈ pathParts s) :
    t ≠ "" ∧ t ≠ "." ∧ '/' ∉ t.data := by
  rw [pathParts, List.mem_filter] at ht
  obtain ⟨hmem, hcond⟩ := ht
  obtain ⟨g, hg, hgt⟩ := List.mem_map.mp hmem
  refine ⟨?_, ?_, ?_⟩
  · intro e; rw [e] at hcond; simp at hcond
  · intro e; rw [e] at hcond; simp at hcond
  · rw [← hgt]
    exact splitSlash_mem_no_slash hg

theorem pathParts_single {s : String} (hs : '/' ∉ s.data) (h0 : s ≠ "") (h1 : s ≠ ".") :
    pathParts s = [s] := by
  rw [pathParts, splitSlash_no_slash hs]
  have : String.mk s.data = s := rfl
  simp only [List.map, this]
  rw [List.filter, decide_eq_true (show ¬(s = "" ∨ s = ".") from fun h => h.elim h0 h1)]
  rfl

theorem pyName_no_slash {f : String} (hne : pyName f ≠ "") :
    pyName f ∈ pathParts f ∧ pyName f ≠ "." ∧ '/' ∉ (pyName f).data := by
  rcases hlast : (pathParts f).getLast? with _ | t
  · rw [pyName, hlast] at hne; simp at hne
  · have hmem : t ∈ pathParts f := List.mem_of_mem_getLast? (by simp [hlast])
    have : pyName f = t := by rw [pyName, hlast]; rfl
    rw [this]
    exact ⟨hmem, (mem_pathParts hmem).2.1, (mem_pathParts hmem).2.2⟩

theorem pathParts_pyName {f : String} (h0 : pyName f ≠ "") (_h1 : pyName f ≠ "..") :
    pathParts (pyName f) = [pyName f] := by
  obtain ⟨_, hdot, hsl⟩ := pyName_no_slash h0
  exact pathParts_single hsl h0 hdot

/-! ### Facts about `resolveGo` -/

theorem resolveGo_error {fs : FS} :
    ∀ {fuel : Nat} {cur : AbsPath} {rest : List Seg} {e : Err},
    resolveGo fs fuel cur rest = .error e → e = .valueError := by
  intro fuel
  induction fuel with
  | zero => intro cur rest e h; simp [resolveGo] at h
  | succ n ih =>
    intro cur rest e h
    cases rest with
    | nil => simp [resolveGo] at h
    | cons name rest =>
      rw [resolveGo] at h
      split at h
      · exact ih h
      · split at h
        · exact ih h
        · split at h
          · exact (Except.error.injEq _ _).mp h |>.symm
          · rcases hs : symlinkAt fs (cur ++ [name]) with _ | t <;> rw [hs] at h
            · exact ih h
            · exact ih h

theorem symlinkAt_aux :
    ∀ es : List (AbsPath × Node),
    (es.all fun e => match e.2 with | Node.symlink _ => false | _ => true) = true →
    ∀ p : AbsPath,
    (match List.lookup p es with
     | some (Node.symlink t) => some t
     | _ => none) = (none : Option String) := by
  intro es
  induction es with
  | nil => intro _ p; rfl
  | cons e es ih =>
    intro h p
    rw [List.all_cons, Bool.and_eq_true] at h
    obtain ⟨k, nd⟩ := e
    rw [List.lookup]
    by_cases hk : (p == k) = true
    · simp only [hk]
      cases nd with
      | dir => rfl
      | file c => rfl
      | symlink t => simpa using h.1
    · rw [Bool.not_eq_true] at hk
      simp only [hk]
      exact ih h.2 p

theorem symlinkAt_of_noSymlinks {fs : FS} (h : noSymlinks fs = true) (p : AbsPath) :
    symlinkAt fs p = none := by
  rw [symlinkAt, FS.lookup]
  exact symlinkAt_aux fs.entries h p

theorem resolveGo_clean {fs : FS} (hfs : noSymlinks fs = true) :
    ∀ {fuel : Nat} {cur : AbsPath} {rest : List Seg},
    rest.length ≤ fuel →
    (∀ s ∈ rest, ¬(s = "" ∨ s = ".") ∧ s ≠ ".." ∧ s.data.contains nulChar = false) →
    resolveGo fs fuel cur rest = .ok (cur ++ rest) := by
  intro fuel
  induction fuel with
  | zero =>
    intro cur rest hlen _
    have : rest = [] := List.eq_nil_of_length_eq_zero (Nat.le_zero.mp hlen)
    subst this
    simp [resolveGo]
  | succ n ih =>
    intro cur rest hlen hclean
    cases rest with
    | nil => simp [resolveGo]
    | cons name rest =>
      obtain ⟨h1, h2, h3⟩ := hclean name (List.mem_cons_self _ _)
      rw [resolveGo, if_neg h1, if_neg h2, h3]
      simp only [Bool.false_eq_true, if_false]
      rw [symlinkAt_of_noSymlinks hfs]
      rw [ih (Nat.le_of_succ_le_succ hlen) fun s hs => hclean s (List.mem_cons_of_mem _ hs)]
      simp

theorem resolveGo_nul {fs : FS} (hfs : noSymlinks fs = true) :
    ∀ {fuel : Nat} {cur : AbsPath} {rest : List Seg},
    rest.length ≤ fuel →
    (∃ s ∈ rest, s.data.contains nulChar = true) →
    resolveGo fs fuel cur rest = .error .valueError := by
  intro fuel
  induction fuel with
  | zero =>
    intro cur rest hlen hex
    have : rest = [] := List.eq_nil_of_length_eq_zero (Nat.le_zero.mp hlen)
    subst this
    simp at hex
  | succ n ih =>
    intro cur rest hlen hex
    cases rest with
    | nil => simp at hex
    | cons name rest =>
      obtain ⟨s, hs, hnul⟩ := hex
      rw [resolveGo]
      by_cases h1 : name = "" ∨ name = "."
      · rw [if_pos h1]
        have hsr : s ∈ rest := by
          rcases List.mem_cons.mp hs with h | h
          · exfalso
            rcases h1 with h1 | h1 <;> rw [h, h1] at hnul <;>
              simp [List.contains] at hnul
            exact absurd hnul (by decide)
          · exact h
        exact ih (Nat.le_of_succ_le_succ hlen) ⟨s, hsr, hnul⟩
      · rw [if_neg h1]
        by_cases h2 : name = ".."
        · rw [if_pos h2]
          have hsr : s ∈ rest := by
            rcases List.mem_cons.mp hs with h | h
            · exfalso
              rw [h, h2] at hnul
              simp [List.contains] at hnul
              exact absurd hnul (by decide)
            · exact h
          exact ih (Nat.le_of_succ_le_succ hlen) ⟨s, hsr, hnul⟩
        · rw [if_neg h2]
          by_cases h3 : name.data.contains nulChar = true
          · rw [h3]
            simp
          · rw [Bool.not_eq_true] at h3
            rw [h3]
            simp only [Bool.false_eq_true, if_false]
            rw [symlinkAt_of_noSymlinks hfs]
            have hsr : s ∈ rest := by
              rcases List.mem_cons.mp hs with h | h
              · exfalso
                rw [h] at hnul
                rw [hnul] at h3
                simp at h3
              · exact h
            exact ih (Nat.le_of_succ_le_succ hlen) ⟨s, hsr, hnul⟩

theorem resolveGo_congr {fs fs' : FS}
    (h : ∀ q, symlinkAt fs' q = symlinkAt fs q) :
    ∀ (fuel : Nat) (cur : AbsPath) (rest : List Seg),
    resolveGo fs' fuel cur rest = resolveGo fs fuel cur rest := by
  intro fuel
  induction fuel with
  | zero => intro cur rest; rfl
  | succ n ih =>
    intro cur rest
    cases rest with
    | nil => rfl
    | cons name rest =>
      rw [resolveGo, resolveGo]
      split
      · exact ih cur rest
      · split
        · exact ih cur.dropLast rest
        · split
          · rfl
          · rw [h (cur ++ [name])]
            rcases symlinkAt fs (cur ++ [name]) with _ | t
            · exact ih (cur ++ [name]) rest
            · exact ih _ _

theorem resolvePath_congr {fs fs' : FS}
    (h : ∀ q, symlinkAt fs' q = symlinkAt fs q) (p : AbsPath) :
    resolvePath fs' p = resolvePath fs p :=
  resolveGo_congr h _ _ _

theorem translate_congr {fs fs' : FS}
    (h : ∀ q, symlinkAt fs' q = symlinkAt fs q) (root : AbsPath) (qpath : String) :
    translate_path_safe root fs' qpath = translate_path_safe root fs qpath := by
  rw [translate_path_safe, translate_path_safe, resolvePath_congr h]

/-! ### Facts about `FS.setNode` -/

theorem lookup_setNode_self (fs : FS) (p : AbsPath) (nd : Node) :
    (fs.setNode p nd).lookup p = some nd := by
  simp [FS.setNode, FS.lookup, List.lookup]

theorem lookup_setNode_ne (fs : FS) {p q : AbsPath} (nd : Node) (h : q ≠ p) :
    (fs.setNode p nd).lookup q = fs.lookup q := by
  have hq : (q == p) = false := by simpa using h
  simp only [FS.setNode, FS.lookup, List.lookup, hq]

theorem symlinkAt_setNode {fs : FS} {w : AbsPath} {c : String}
    (hw : symlinkAt fs w = none) (q : AbsPath) :
    symlinkAt (fs.setNode w (.file c)) q = symlinkAt fs q := by
  by_cases hq : q = w
  · subst hq
    rw [symlinkAt, lookup_setNode_self, hw]
  · rw [symlinkAt, lookup_setNode_ne _ _ hq, symlinkAt]

/-! ### Lookups across `moveSubtree` (POSIX rename of a subtree) -/

theorem lookup_moveSubtree_target (fs : FS) {rs rd : AbsPath}
    (_hlen : rs.length = rd.length) (hne : rs ≠ rd) :
    (moveSubtree fs rs rd).lookup rd = fs.lookup rs := by
  rw [moveSubtree, FS.lookup, FS.lookup]
  show List.lookup rd (fs.entries.filterMap (moveEntry rs rd)) = List.lookup rs fs.entries
  induction fs.entries with
  | nil => rfl
  | cons e es ih =>
    obtain ⟨k, nd⟩ := e
    rw [List.filterMap_cons]
    by_cases hk : k = rd
    · rw [moveEntry, if_pos (by simpa using hk)]
      have : (rs == k) = false := by simp [hk, hne]
      simp only [List.lookup, this]
      exact ih
    · rw [moveEntry, if_neg (by simpa using hk)]
      by_cases hpre : rs.isPrefixOf k = true
      · rw [if_pos hpre]
        obtain ⟨suf, hsuf⟩ := exists_of_isPrefixOf hpre
        subst hsuf
        rw [List.drop_left]
        cases suf with
        | nil =>
          have h1 : (rd == rd ++ ([] : List Seg)) = true := by simp
          have h2 : (rs == rs ++ ([] : List Seg)) = true := by simp
          simp only [List.lookup, h1, h2]
        | cons a suf =>
          have h1 : (rd == rd ++ a :: suf) = false := by
            simp only [beq_eq_false_iff_ne, ne_eq]
            intro h
            have := congrArg List.length h
            simp at this
          have h2 : (rs == rs ++ a :: suf) = false := by
            simp only [beq_eq_false_iff_ne, ne_eq]
            intro h
            have := congrArg List.length h
            simp at this
          simp only [List.lookup, h1, h2]
          exact ih
      · rw [if_neg hpre]
        have h1 : (rd == k) = false := by simp [Ne.symm hk]
        have h2 : (rs == k) = false := by
          simp only [beq_eq_false_iff_ne, ne_eq]
          intro h
          rw [← h] at hpre
          exact hpre (isPrefixOf_refl rs)
        simp only [List.lookup, h1, h2]
        exact ih

theorem lookup_moveSubtree_source (fs : FS) {rs rd : AbsPath}
    (hlen : rs.length = rd.length) (hne : rs ≠ rd) :
    (moveSubtree fs rs rd).lookup rs = none := by
  rw [moveSubtree, FS.lookup]
  show List.lookup rs (fs.entries.filterMap (moveEntry rs rd)) = none
  induction fs.entries with
  | nil => rfl
  | cons e es ih =>
    obtain ⟨k, nd⟩ := e
    rw [List.filterMap_cons]
    by_cases hk : k = rd
    · rw [moveEntry, if_pos (by simpa using hk)]
      exact ih
    · rw [moveEntry, if_neg (by simpa using hk)]
      by_cases hpre : rs.isPrefixOf k = true
      · rw [if_pos hpre]
        obtain ⟨suf, hsuf⟩ := exists_of_isPrefixOf hpre
        subst hsuf
        rw [List.drop_left]
        have h1 : (rs == rd ++ suf) = false := by
          simp only [beq_eq_false_iff_ne, ne_eq]
          cases suf with
          | nil => simpa using hne
          | cons a suf =>
            intro h
            have := congrArg List.length h
            simp [hlen] at this
        simp only [List.lookup, h1]
        exact ih
      · rw [if_neg hpre]
        have h1 : (rs == k) = false := by
          simp only [beq_eq_false_iff_ne, ne_eq]
          intro h
          rw [← h] at hpre
          exact hpre (isPrefixOf_refl rs)
        simp only [List.lookup, h1]
        exact ih

/-! ### C1 — containment of `translate_path_safe` -/

/-- C1 counterexample: the claim says `translate_path_safe` either returns a
contained path or signals OutsideRoot (`PermissionError`); but for the query
path `%00` (a null byte once decoded) `resolve()` raises `ValueError`, a
third outcome distinct from `PermissionError`. -/
theorem translate_nul_counterexample :
    translate_path_safe ["r"] fs0 "%00" = .error .valueError ∧
    Err.valueError ≠ Err.outsideRoot := by
  constructor
  · rfl
  · decide

/-- C1 amended: for every client-supplied virtual path string,
`translate_path_safe` either returns a canonicalized path having Root as a
segment prefix (Root itself or a descendant), or signals OutsideRoot
(`PermissionError`), or — only for paths whose decoding holds a null
byte — fails with `ValueError`; in particular the path `/link/secret.txt`
through the in-root symlink `link -> /out` is rejected as OutsideRoot. -/
theorem translate_containment :
    (∀ (root : AbsPath) (fs : FS) (qpath : String),
      match translate_path_safe root fs qpath with
      | .ok t => root.isPrefixOf t = true
      | .error e => e = .outsideRoot ∨ e = .valueError) ∧
    translate_path_safe ["r"] fsLink "/link/secret.txt" = .error .outsideRoot := by
  constructor
  · intro root fs qpath
    rcases hr : resolvePath fs (root ++ pathParts (decodedPath qpath)) with e | t
    · simp only [translate_path_safe, hr]
      exact .inr (resolveGo_error hr)
    · simp only [translate_path_safe, hr]
      by_cases hp : root.isPrefixOf t = true
      · rw [if_pos hp]
        exact hp
      · rw [if_neg hp]
        exact .inl rfl
  · rfl

/-! ### C7 — null bytes and control characters in the decoded path -/

/-- C7 counterexample: the claim says a decoded virtual path containing a
control character is rejected outright; but `%01` decodes to the control
character U+0001 and resolves to an ordinary in-root filesystem path. -/
theorem translate_control_char_counterexample :
    translate_path_safe ["r"] fs0 "%01" = .ok ["r", "\x01"] ∧
    ("\x01" : String).data.all (fun c => c.toNat < 32) = true := by
  constructor
  · rfl
  · decide

/-- Every segment of a clean root is non-special and free of slashes and
null bytes (the startup `Path(root).resolve()` yields such a root). -/
def rootClean (root : AbsPath) : Bool :=
  root.all fun s =>
    !(s = "" || s = "." || s = "..") && !(s.data.contains nulChar)

/-- C7 amended: the resolver has no explicit check: a decoded path holding a
null byte fails with `ValueError` (raised by `os.lstat` inside `resolve`;
stated for symlink-free filesystems, where resolution provably reaches every
segment), while any other control character is accepted and resolves to an
in-root filesystem path. -/
theorem translate_nul_and_control (root : AbsPath) (fs : FS)
    (hfs : noSymlinks fs = true) (hroot : rootClean root = true) :
    (∀ qpath : String, (decodedPath qpath).data.contains nulChar = true →
      translate_path_safe root fs qpath = .error .valueError) ∧
    (∀ c : Char, c.toNat < 32 → c ≠ nulChar →
      translate_path_safe root fs (String.mk [c]) = .ok (root ++ [String.mk [c]])) := by
  have hrootseg : ∀ s ∈ root, ¬(s = "" ∨ s = ".") ∧ s ≠ ".." ∧
      s.data.contains nulChar = false := by
    intro s hs
    have := (List.all_eq_true.mp hroot) s hs
    simp only [Bool.and_eq_true, Bool.not_eq_true', Bool.or_eq_false_iff,
      decide_eq_false_iff_not] at this
    exact ⟨fun h => h.elim this.1.1.1 this.1.1.2, this.1.2, this.2⟩
  constructor
  · intro qpath hnul
    have hex : ∃ s ∈ root ++ pathParts (decodedPath qpath),
        s.data.contains nulChar = true := by
      have hmem : nulChar ∈ (decodedPath qpath).data := List.mem_of_elem_eq_true hnul
      obtain ⟨g, hg, hcg⟩ := splitSlash_of_mem hmem (by decide)
      refine ⟨String.mk g, ?_, List.elem_eq_true_of_mem hcg⟩
      apply List.mem_append_right
      rw [pathParts, List.mem_filter]
      refine ⟨List.mem_map_of_mem _ hg, ?_⟩
      have hg0 : String.mk g ≠ "" := by
        intro h
        have h2 : g = ([] : List Char) := congrArg String.data h
        rw [h2] at hcg
        simp at hcg
      have hg1 : String.mk g ≠ "." := by
        intro h
        have h2 : g = ['.'] := congrArg String.data h
        rw [h2] at hcg
        simp at hcg
        exact absurd hcg (by decide)
      simp [hg0, hg1]
    have hres : resolvePath fs (root ++ pathParts (decodedPath qpath)) =
        .error .valueError := by
      rw [resolvePath]
      exact resolveGo_nul hfs (by omega) hex
    simp only [translate_path_safe, hres]
  · intro c hc hc0
    have hcp : c ≠ '%' := fun h => absurd (h ▸ hc) (by decide)
    have hcs : c ≠ '/' := fun h => absurd (h ▸ hc) (by decide)
    have hcd : c ≠ '.' := fun h => absurd (h ▸ hc) (by decide)
    have hdec : decodedPath (String.mk [c]) = String.mk ['/', c] := by
      have habs : strIsAbs (String.mk [c]) = false := by
        simp [strIsAbs, hcs]
      rw [decodedPath, habs]
      simp only [Bool.false_eq_true, if_false]
      show pyUnquote (String.mk ('/' :: [c])) = String.mk ['/', c]
      rw [pyUnquote]
      show String.mk (pyUnquoteAux ['/', c] []) = String.mk ['/', c]
      rw [pyUnquoteAux, if_neg (by decide), pyUnquoteAux, if_neg hcp]
      rfl
    have hparts : pathParts (String.mk ['/', c]) = [String.mk [c]] := by
      rw [pathParts]
      rw [show (String.mk ['/', c]).data = '/' :: [c] from rfl]
      rw [splitSlashChars, if_pos rfl]
      rw [splitSlashChars, if_neg hcs, splitSlashChars]
      have hg0 : String.mk [c] ≠ "" := by
        intro h
        have h2 : [c] = ([] : List Char) := congrArg String.data h
        simp at h2
      have hg1 : String.mk [c] ≠ "." := by
        intro h
        have h2 : [c] = ['.'] := congrArg String.data h
        simp at h2
        exact hcd h2
      simp [hg0, hg1]
    have hclean : ∀ s ∈ root ++ [String.mk [c]], ¬(s = "" ∨ s = ".") ∧ s ≠ ".." ∧
        s.data.contains nulChar = false := by
      intro s hs
      rcases List.mem_append.mp hs with h | h
      · exact hrootseg s h
      · rw [List.mem_singleton.mp h]
        refine ⟨?_, ?_, ?_⟩
        · intro h2
          rcases h2 with h2 | h2
          · have h3 : [c] = ([] : List Char) := congrArg String.data h2
            simp at h3
          · have h3 : [c] = ['.'] := congrArg String.data h2
            simp at h3
            exact hcd h3
        · intro h2
          have h3 : [c] = ['.', '.'] := congrArg String.data h2
          simp at h3
        · show [c].contains nulChar = false
          have hnn : nulChar ≠ c := fun h => hc0 h.symm
          simp [List.contains, hnn]
    have hres : resolvePath fs (root ++ [String.mk [c]]) =
        .ok (root ++ [String.mk [c]]) := by
      rw [resolvePath]
      rw [resolveGo_clean hfs (by simp) hclean]
      simp
    rw [translate_path_safe, hdec, hparts]
    simp only [hres]
    rw [if_pos (isPrefixOf_append root [String.mk [c]])]

/-- C7 amended, witness: a concrete null-byte query fails with `ValueError`
and the concrete control character U+0002 resolves. -/
theorem translate_nul_and_control_witness :
    translate_path_safe ["r"] fs0 "a%00b" = .error .valueError ∧
    translate_path_safe ["r"] fs0 (String.mk ['\x02']) = .ok (["r"] ++ [String.mk ['\x02']]) :=
  ⟨(translate_nul_and_control ["r"] fs0 (by decide) (by decide)).1 "a%00b" (by decide),
   (translate_nul_and_control ["r"] fs0 (by decide) (by decide)).2 '\x02' (by decide) (by decide)⟩

/-! ### C2 — upload filename sanitization -/

theorem strIsAbs_eq_false {s : String} (h : '/' ∉ s.data) : strIsAbs s = false := by
  rw [strIsAbs]
  cases hd : s.data with
  | nil => rfl
  | cons d rest =>
    have hne : d ≠ '/' := by
      intro e
      apply h
      rw [hd, ← e]
      exact List.mem_cons_self d rest
    simp [hne]

theorem writeFileAt_ok {fs : FS} {p : AbsPath} {content : String} {fs' : FS} {w : AbsPath}
    (h : writeFileAt fs p content = .ok (fs', w)) :
    pathHasNul p = false ∧ resolvePath fs p = .ok w ∧ w ≠ [] ∧
    symlinkAt fs w = none ∧ fs.lookup w ≠ some .dir ∧
    ancestorsAreDirs fs w = true ∧ fs' = fs.setNode w (.file content) := by
  rw [writeFileAt] at h
  split at h
  · cases h
  · next hnul =>
    split at h
    · cases h
    · next w0 hres =>
      split at h
      · cases h
      · next hw0 =>
        split at h
        · cases h
        · cases h
        · next hdir hsym =>
          split at h
          · next hanc =>
            simp only [Except.ok.injEq, Prod.mk.injEq] at h
            obtain ⟨hfs', hw⟩ := h
            subst hw
            refine ⟨by simpa using hnul, hres, hw0, ?_, ?_, hanc, hfs'.symm⟩
            · rw [symlinkAt]
              rcases hl : fs.lookup w0 with _ | nd
              · rfl
              · cases nd with
                | dir => exact absurd hl hdir
                | file c => rfl
                | symlink t => exact absurd hl (hsym t)
            · exact hdir
          · cases h

/-- C2 counterexample: the claim says every uploaded part's write lands only
inside the resolved destination directory; but when the destination already
holds a symlink named like the upload (`/r/up/evil.sh -> /out/evil.sh`),
`open(dest, 'wb')` follows it and the bytes land outside the destination
(and outside Root). -/
theorem upload_symlink_escape_counterexample :
    (savePart fsUp ["r", "up"] ⟨"evil.sh", "X"⟩).2 = some ["out", "evil.sh"] ∧
    List.isPrefixOf ["r", "up"] ["out", "evil.sh"] = false ∧
    (savePart fsUp ["r", "up"] ⟨"evil.sh", "X"⟩).1.lookup ["out", "evil.sh"] =
      some (.file "X") := by
  refine ⟨rfl, by decide, rfl⟩

/-- C2 amended: every uploaded part is saved under
`Path(part.filename).name` (all directory components stripped) joined to the
destination folder; provided that joined path resolves to itself (no symlink
sits at that name) and the stripped name is neither empty nor `'..'`, a saved
part lands exactly at `folder/name`, inside the destination.  In particular
`'../../evil.sh'` sanitizes to `'evil.sh'`. -/
theorem upload_basename_contained (fs : FS) (folder : AbsPath) (part : Part)
    (h0 : pyName part.filename ≠ "")
    (h1 : pyName part.filename ≠ "..")
    (h2 : resolvePath fs (folder ++ [pyName part.filename]) =
      .ok (folder ++ [pyName part.filename])) :
    (∀ w, (savePart fs folder part).2 = some w →
      w = folder ++ [pyName part.filename] ∧
      folder.isPrefixOf w = true ∧
      (savePart fs folder part).1.lookup w = some (.file part.content)) ∧
    pyName "../../evil.sh" = "evil.sh" := by
  refine ⟨?_, rfl⟩
  intro w hw
  have hfile : part.filename ≠ "" := by
    intro h
    apply h0
    rw [h]
    rfl
  have hjoin : pyJoin folder (pyName part.filename) = folder ++ [pyName part.filename] := by
    rw [pyJoin, strIsAbs_eq_false (pyName_no_slash h0).2.2, pathParts_pyName h0 h1]
    simp
  rcases hwr : writeFileAt fs (folder ++ [pyName part.filename]) part.content
    with e | ⟨fs', w'⟩
  · exfalso
    rw [savePart, if_neg hfile, hjoin, hwr] at hw
    exact Option.noConfusion hw
  · have hsp : savePart fs folder part = (fs', some w') := by
      rw [savePart, if_neg hfile, hjoin, hwr]
    rw [hsp] at hw
    simp only [Option.some.injEq] at hw
    subst hw
    obtain ⟨_, hres, _, _, _, _, hfs'⟩ := writeFileAt_ok hwr
    rw [h2] at hres
    have hww : w' = folder ++ [pyName part.filename] := by
      simpa using hres.symm
    rw [hsp]
    refine ⟨hww, ?_, ?_⟩
    · rw [hww]
      exact isPrefixOf_append _ _
    · show fs'.lookup w' = some (.file part.content)
      rw [hfs', hww, lookup_setNode_self]

/-- C2 amended, witness: uploading `'../../evil.sh'` into `/r` writes
`/r/evil.sh`. -/
theorem upload_basename_contained_witness :
    (["r", "evil.sh"] : AbsPath) = ["r"] ++ [pyName "../../evil.sh"] ∧
    List.isPrefixOf ["r"] ["r", "evil.sh"] = true ∧
    (savePart fs0 ["r"] ⟨"../../evil.sh", "P"⟩).1.lookup ["r", "evil.sh"] =
      some (.file "P") :=
  (upload_basename_contained fs0 ["r"] ⟨"../../evil.sh", "P"⟩ (by decide) (by decide)
    (by rfl)).1 ["r", "evil.sh"] (by rfl)

/-! ### C3 — mutation operations short-circuit on resolution failure -/

/-- C3 counterexample: the claim says an upload whose destination fails the
containment check writes nothing; but the handler catches the
`PermissionError` and falls back to the root directory, so the file is
written (into Root) and the request reports one saved file. -/
theorem upload_fallback_counterexample :
    translate_path_safe ["r"] fs0 "/.." = .error .outsideRoot ∧
    (uploadApi ["r"] fs0 "/.." [⟨"a.txt", "X"⟩]).2 = ⟨200, savedBody 1⟩ ∧
    (uploadApi ["r"] fs0 "/.." [⟨"a.txt", "X"⟩]).1.lookup ["r", "a.txt"] =
      some (.file "X") := by
  refine ⟨rfl, rfl, rfl⟩

/-- C3 amended: for mkdir, delete, rename, save, chmod/chown and move, a
failure of `translate_path_safe` on any supplied virtual path short-circuits
with the 400 `{'error': ...}` response and leaves the filesystem unchanged.
(Upload instead falls back to Root as destination and still writes, and
move-multiple aborts mid-list keeping the moves already made — see the
counterexample.) -/
theorem mutation_short_circuit (root : AbsPath) (fs : FS)
    (p name new src tgt content : String) (ps : PermSet) (e : Err)
    (h : translate_path_safe root fs p = .error e) :
    mkdirApi root fs p name = (fs, errResp e) ∧
    deleteApi root fs p = (fs, errResp e) ∧
    renameApi root fs p new = (fs, errResp e) ∧
    saveApi root fs p content = (fs, errResp e) ∧
    permsApi root fs p ps = (fs, errResp e) ∧
    moveApi root fs p tgt = (fs, errResp e) ∧
    (moveApi root fs src p).1 = fs ∧ (moveApi root fs src p).2.code = 400 := by
  refine ⟨?_, ?_, ?_, ?_, ?_, ?_, ?_, ?_⟩
  · simp only [mkdirApi, h]
  · simp only [deleteApi, h]
  · simp only [renameApi, h]
  · simp only [saveApi, h]
  · simp only [permsApi, h]
  · simp only [moveApi, h]
  · rcases hs : translate_path_safe root fs src with e' | sp
    · simp only [moveApi, hs]
    · simp only [moveApi, hs, h]
  · rcases hs : translate_path_safe root fs src with e' | sp
    · simp only [moveApi, hs]
      rfl
    · simp only [moveApi, hs, h]
      rfl

/-- C3 amended, witness: the escaping path `/..` short-circuits mkdir and
delete on the concrete root `/r`. -/
theorem mutation_short_circuit_witness :
    mkdirApi ["r"] fs0 "/.." "d" = (fs0, errResp .outsideRoot) ∧
    deleteApi ["r"] fs0 "/.." = (fs0, errResp .outsideRoot) :=
  ⟨(mutation_short_circuit ["r"] fs0 "/.." "d" "" "" "" "" permNone .outsideRoot rfl).1,
   (mutation_short_circuit ["r"] fs0 "/.." "d" "" "" "" "" permNone .outsideRoot rfl).2.1⟩

/-! ### C4 — error response bodies -/

/-- C4 counterexample: the claim says no failing response body contains an
absolute filesystem path; but deleting a non-existent path puts
`str(FileNotFoundError)` — which carries the resolved absolute path,
Root included — into the `{'error': ...}` body. -/
theorem error_body_leaks_path_counterexample :
    (deleteApi ["r"] fs0 "/nope.txt").2 =
      ⟨400, "\x7b\"error\": \"[Errno 2] No such file or directory: \x27/r/nope.txt\x27\"\x7d"⟩ ∧
    (pathStr ["r"]).data <:+: ((deleteApi ["r"] fs0 "/nope.txt").2.body).data := by
  refine ⟨rfl, ?_⟩
  decide

theorem moveMultipleGo_error_shape (root : AbsPath) (tp : AbsPath) :
    ∀ (sources : List String) (fs : FS),
    (moveMultipleGo root tp fs sources).2.code ≠ 200 →
    ∃ m, (moveMultipleGo root tp fs sources).2.body = errBody m := by
  intro sources
  induction sources with
  | nil =>
    intro fs h
    exact absurd rfl h
  | cons s rest ih =>
    intro fs h
    rcases h1 : translate_path_safe root fs s with e | sp
    · simp only [moveMultipleGo, h1]
      exact ⟨pyStr e, rfl⟩
    · rcases h2 : shutilMove fs sp (tp ++ pathParts (lastSeg sp)) with e | fs'
      · simp only [moveMultipleGo, h1, h2]
        exact ⟨pyStr e, rfl⟩
      · simp only [moveMultipleGo, h1, h2] at h ⊢
        exact ih fs' h

/-- C4 amended: every failing (non-200) response of the modeled JSON
handlers is the single-key JSON object `{'error': message}`; the message is
`str(e)` of the caught exception, which for OS errors includes the absolute
filesystem path (see the counterexample), and the GET handlers that call
`send_error` (download, preview, edit, permissions) answer with the server's
default HTML error page instead. -/
theorem error_responses_shape (root : AbsPath) (fs : FS)
    (p name new src tgt content q : String) (ps : PermSet)
    (sources : List String) (parts : List Part) :
    ((mkdirApi root fs p name).2.code ≠ 200 →
      ∃ m, (mkdirApi root fs p name).2.body = errBody m) ∧
    ((deleteApi root fs p).2.code ≠ 200 →
      ∃ m, (deleteApi root fs p).2.body = errBody m) ∧
    ((renameApi root fs p new).2.code ≠ 200 →
      ∃ m, (renameApi root fs p new).2.body = errBody m) ∧
    ((saveApi root fs p content).2.code ≠ 200 →
      ∃ m, (saveApi root fs p content).2.body = errBody m) ∧
    ((permsApi root fs p ps).2.code ≠ 200 →
      ∃ m, (permsApi root fs p ps).2.body = errBody m) ∧
    ((moveApi root fs src tgt).2.code ≠ 200 →
      ∃ m, (moveApi root fs src tgt).2.body = errBody m) ∧
    ((moveMultipleApi root fs sources tgt).2.code ≠ 200 →
      ∃ m, (moveMultipleApi root fs sources tgt).2.body = errBody m) ∧
    ((uploadApi root fs p parts).2.code ≠ 200 →
      ∃ m, (uploadApi root fs p parts).2.body = errBody m) ∧
    (∀ r, listApi root fs q = .error r → ∃ m, r.body = errBody m) := by
  refine ⟨?_, ?_, ?_, ?_, ?_, ?_, ?_, ?_, ?_⟩
  · rcases h1 : translate_path_safe root fs p with e | base
    · simp only [mkdirApi, h1]
      exact fun _ => ⟨pyStr e, rfl⟩
    · rcases h2 : mkdirAt fs (pyJoin base name) with e | fs'
      · simp only [mkdirApi, h1, h2]
        exact fun _ => ⟨pyStr e, rfl⟩
      · simp only [mkdirApi, h1, h2]
        exact fun h => absurd rfl h
  · rcases h1 : translate_path_safe root fs p with e | t
    · simp only [deleteApi, h1]
      exact fun _ => ⟨pyStr e, rfl⟩
    · by_cases h2 : isDirAt fs t = true
      · simp only [deleteApi, h1, h2, if_true]
        exact fun h => absurd rfl h
      · rcases h3 : fs.lookup t with _ | nd
        · simp only [deleteApi, h1, if_neg h2, h3]
          exact fun _ => ⟨pyStr (.notFound (pathStr t)), rfl⟩
        · simp only [deleteApi, h1, if_neg h2, h3]
          exact fun h => absurd rfl h
  · rcases h1 : translate_path_safe root fs p with e | t
    · simp only [renameApi, h1]
      exact fun _ => ⟨pyStr e, rfl⟩
    · rcases h2 : renameAt fs t (pyJoin t.dropLast new) with e | fs'
      · simp only [renameApi, h1, h2]
        exact fun _ => ⟨pyStr e, rfl⟩
      · simp only [renameApi, h1, h2]
        exact fun h => absurd rfl h
  · rcases h1 : translate_path_safe root fs p with e | t
    · simp only [saveApi, h1]
      exact fun _ => ⟨pyStr e, rfl⟩
    · rcases h2 : writeFileAt fs t content with e | r
      · simp only [saveApi, h1, h2]
        exact fun _ => ⟨pyStr e, rfl⟩
      · obtain ⟨fs', w⟩ := r
        simp only [saveApi, h1, h2]
        exact fun h => absurd rfl h
  · rcases h1 : translate_path_safe root fs p with e | t
    · simp only [permsApi, h1]
      exact fun _ => ⟨pyStr e, rfl⟩
    · rcases h2 : chmodAt fs t (permBits ps) with e | fs'
      · simp only [permsApi, h1, h2]
        exact fun _ => ⟨pyStr e, rfl⟩
      · simp only [permsApi, h1, h2]
        exact fun h => absurd rfl h
  · rcases h1 : translate_path_safe root fs src with e | sp
    · simp only [moveApi, h1]
      exact fun _ => ⟨pyStr e, rfl⟩
    · rcases h2 : translate_path_safe root fs tgt with e | tp
      · simp only [moveApi, h1, h2]
        exact fun _ => ⟨pyStr e, rfl⟩
      · rcases h3 : shutilMove fs sp tp with e | fs'
        · simp only [moveApi, h1, h2, h3]
          exact fun _ => ⟨pyStr e, rfl⟩
        · simp only [moveApi, h1, h2, h3]
          exact fun h => absurd rfl h
  · rcases h1 : translate_path_safe root fs tgt with e | tp
    · simp only [moveMultipleApi, h1]
      exact fun _ => ⟨pyStr e, rfl⟩
    · simp only [moveMultipleApi, h1]
      exact moveMultipleGo_error_shape root tp sources fs
  · rw [uploadApi]
    split
    · exact fun _ => ⟨"no files uploaded", rfl⟩
    · exact fun h => absurd rfl h
  · intro r hr
    rcases h1 : translate_path_safe root fs q with e | t
    · simp only [listApi, h1] at hr
      cases hr
      exact ⟨"forbidden", rfl⟩
    · by_cases h2 : isDirAt fs t = true
      · simp only [listApi, h1, h2, if_true] at hr
        cases hr
      · simp only [listApi, h1, if_neg h2] at hr
        cases hr
        exact ⟨"not found", rfl⟩

/-- C4 amended, witness: the failing delete of `/missing.txt` has an
`{'error': ...}` body. -/
theorem error_responses_shape_witness :
    ∃ m, (deleteApi ["r"] fs0 "/missing.txt").2.body = errBody m :=
  (error_responses_shape ["r"] fs0 "/missing.txt" "" "" "" "" "" "" permNone [] []).2.1
    (by decide)

/-! ### C5, C6 — rename semantics -/

theorem dropLast_append_lastSeg {t : AbsPath} (ht : t ≠ []) :
    t.dropLast ++ [lastSeg t] = t := by
  rw [lastSeg, List.getLast?_eq_getLast t ht]
  exact List.dropLast_append_getLast ht

/-- A path whose last segment is not special and whose dirname resolves to
itself resolves to itself under the no-follow kernel walk. -/
theorem resolveNoFollow_self {fs : FS} {t : AbsPath} (ht : t ≠ [])
    (hspec : specialSeg (lastSeg t) = false)
    (hp : resolvePath fs t.dropLast = .ok t.dropLast) :
    resolveNoFollow fs t = .ok t := by
  rw [resolveNoFollow, if_neg ht]
  simp only [hspec, Bool.false_eq_true, if_false]
  simp only [hp]
  rw [dropLast_append_lastSeg ht]

/-- POSIX rename replaces an existing destination file: under clean resolved
paths, renaming a regular file onto an existing regular file succeeds and
moves the subtree. -/
theorem renameAt_replace {fs : FS} {rs rd : AbsPath} {c c' : String}
    (hs : resolveNoFollow fs rs = .ok rs) (hd : resolveNoFollow fs rd = .ok rd)
    (hnul1 : pathHasNul rs = false) (hnul2 : pathHasNul rd = false)
    (hrs : rs ≠ []) (hrd : rd ≠ [])
    (hsrc : fs.lookup rs = some (.file c)) (hdst : fs.lookup rd = some (.file c'))
    (hne : rs ≠ rd) (ha : ancestorsAreDirs fs rd = true) :
    renameAt fs rs rd = .ok (moveSubtree fs rs rd) := by
  rw [renameAt]
  simp only [hnul1, hnul2, Bool.or_self, Bool.false_eq_true, if_false]
  simp only [hs, hd]
  rw [if_neg hrs, if_neg hrd]
  simp only [hsrc]
  rw [if_neg hne]
  have ha' : (ancestorsAreDirs fs rd = false) = False := by simp [ha]
  simp only [ha', if_false]
  simp only [hdst]

/-- Success of `renameAt` between same-length resolved paths leaves an entry
at the destination. -/
theorem renameAt_ok_target {fs fs' : FS} {src dst : AbsPath}
    (hs : resolveNoFollow fs src = .ok src) (hd : resolveNoFollow fs dst = .ok dst)
    (hlen : src.length = dst.length)
    (h : renameAt fs src dst = .ok fs') :
    fs'.lookup dst ≠ none := by
  rw [renameAt] at h
  split at h
  · cases h
  · simp only [hs, hd] at h
    split at h
    · cases h
    · split at h
      · cases h
      · rcases hl : fs.lookup src with _ | srcNode
        · simp only [hl] at h
          cases h
        · simp only [hl] at h
          by_cases heq : src = dst
          · rw [if_pos heq] at h
            have hff : fs = fs' := by
              simpa using h
            rw [← hff, ← heq, hl]
            simp
          · rw [if_neg heq] at h
            split at h
            · cases h
            · cases srcNode with
              | dir =>
                rcases hld : fs.lookup dst with _ | dnd
                · simp only [hld] at h
                  split at h
                  · cases h
                  · have hff : moveSubtree fs src dst = fs' := by simpa using h
                    rw [← hff, lookup_moveSubtree_target fs hlen heq, hl]
                    simp
                · cases dnd with
                  | dir =>
                    simp only [hld] at h
                    split at h
                    · cases h
                    · split at h
                      · cases h
                      · have hff : moveSubtree fs src dst = fs' := by simpa using h
                        rw [← hff, lookup_moveSubtree_target fs hlen heq, hl]
                        simp
                  | file c2 =>
                    simp only [hld] at h
                    split at h <;> cases h
                  | symlink t2 =>
                    simp only [hld] at h
                    split at h <;> cases h
              | file c =>
                rcases hld : fs.lookup dst with _ | dnd
                · simp only [hld] at h
                  have hff : moveSubtree fs src dst = fs' := by simpa using h
                  rw [← hff, lookup_moveSubtree_target fs hlen heq, hl]
                  simp
                · cases dnd with
                  | dir =>
                    simp only [hld] at h
                    cases h
                  | file c2 =>
                    simp only [hld] at h
                    have hff : moveSubtree fs src dst = fs' := by simpa using h
                    rw [← hff, lookup_moveSubtree_target fs hlen heq, hl]
                    simp
                  | symlink t2 =>
                    simp only [hld] at h
                    have hff : moveSubtree fs src dst = fs' := by simpa using h
                    rw [← hff, lookup_moveSubtree_target fs hlen heq, hl]
                    simp
              | symlink t =>
                rcases hld : fs.lookup dst with _ | dnd
                · simp only [hld] at h
                  have hff : moveSubtree fs src dst = fs' := by simpa using h
                  rw [← hff, lookup_moveSubtree_target fs hlen heq, hl]
                  simp
                · cases dnd with
                  | dir =>
                    simp only [hld] at h
                    cases h
                  | file c2 =>
                    simp only [hld] at h
                    have hff : moveSubtree fs src dst = fs' := by simpa using h
                    rw [← hff, lookup_moveSubtree_target fs hlen heq, hl]
                    simp
                  | symlink t2 =>
                    simp only [hld] at h
                    have hff : moveSubtree fs src dst = fs' := by simpa using h
                    rw [← hff, lookup_moveSubtree_target fs hlen heq, hl]
                    simp

/-- C5 counterexample: the claim says renaming onto an existing name fails
with a NameConflict-style error leaving both files untouched; but POSIX
`os.rename` silently replaces the destination: renaming `a.txt` to `b.txt`
answers `{'ok': true}`, `b.txt` now holds `a.txt`'s content `AAA` (its own
`BBB` destroyed) and `a.txt` is gone. -/
theorem rename_conflict_counterexample :
    (renameApi ["r"] fs5 "/a.txt" "b.txt").2 = okResp ∧
    (renameApi ["r"] fs5 "/a.txt" "b.txt").1.lookup ["r", "b.txt"] =
      some (.file "AAA") ∧
    (renameApi ["r"] fs5 "/a.txt" "b.txt").1.lookup ["r", "a.txt"] = none := by
  refine ⟨rfl, rfl, rfl⟩

/-- C5 amended: renaming a regular file to the name of an existing regular
file in the same parent succeeds with `{'ok': true}` and silently replaces
it — the destination ends up with the source's content and the source entry
is removed (POSIX `os.rename` overwrite; no NameConflict error exists on
this platform). -/
theorem rename_overwrites (root : AbsPath) (fs : FS) (p new : String)
    (t : AbsPath) (n : String) (c c' : String)
    (h1 : translate_path_safe root fs p = .ok t)
    (ht : t ≠ [])
    (hspec : specialSeg (lastSeg t) = false)
    (hnul : pathHasNul t = false)
    (hp : resolvePath fs t.dropLast = .ok t.dropLast)
    (hn : pathParts new = [n]) (hnabs : strIsAbs new = false) (hndd : n ≠ "..")
    (hnnul : n.data.contains nulChar = false)
    (hsrc : fs.lookup t = some (.file c))
    (hdst : fs.lookup (t.dropLast ++ [n]) = some (.file c'))
    (hne : t ≠ t.dropLast ++ [n])
    (ha : ancestorsAreDirs fs (t.dropLast ++ [n]) = true) :
    (renameApi root fs p new).2 = okResp ∧
    (renameApi root fs p new).1.lookup (t.dropLast ++ [n]) = some (.file c) ∧
    (renameApi root fs p new).1.lookup t = none := by
  have hjoin : pyJoin t.dropLast new = t.dropLast ++ [n] := by
    rw [pyJoin]
    simp only [hnabs, Bool.false_eq_true, if_false]
    rw [hn]
  have hnmem : n ∈ pathParts new := by
    rw [hn]
    exact List.mem_singleton_self n
  obtain ⟨hn0, hn1, _⟩ := mem_pathParts hnmem
  have hspecn : specialSeg n = false := by
    simp [specialSeg, hn0, hn1, hndd]
  have hdne : (t.dropLast ++ [n] : AbsPath) ≠ [] := by simp
  have hself_src : resolveNoFollow fs t = .ok t := resolveNoFollow_self ht hspec hp
  have hself_dst : resolveNoFollow fs (t.dropLast ++ [n]) = .ok (t.dropLast ++ [n]) := by
    refine resolveNoFollow_self hdne ?_ ?_
    · rw [lastSeg_append_single]
      exact hspecn
    · rw [dropLast_append_single]
      exact hp
  have hnd : pathHasNul (t.dropLast ++ [n]) = false := by
    have h2 := pathHasNul_dropLast hnul
    simp only [pathHasNul, List.any_append, List.any_cons, List.any_nil,
      Bool.or_false, Bool.or_eq_false_iff] at h2 ⊢
    exact ⟨h2, hnnul⟩
  have hlen : t.length = (t.dropLast ++ [n]).length := by
    conv_lhs => rw [← dropLast_append_lastSeg ht]
    simp
  have hren : renameAt fs t (t.dropLast ++ [n]) =
      .ok (moveSubtree fs t (t.dropLast ++ [n])) :=
    renameAt_replace hself_src hself_dst hnul hnd ht hdne hsrc hdst hne ha
  refine ⟨?_, ?_, ?_⟩
  · simp only [renameApi, h1, hjoin, hren]
  · simp only [renameApi, h1, hjoin, hren]
    rw [lookup_moveSubtree_target fs hlen hne, hsrc]
  · simp only [renameApi, h1, hjoin, hren]
    rw [lookup_moveSubtree_source fs hlen hne]

/-- C5 amended, witness: on `/r` holding `x.txt` (content `X1`) and `y.txt`
(content `Y1`), rename `x.txt -> y.txt` answers ok, `y.txt` holds `X1`,
`x.txt` is gone. -/
theorem rename_overwrites_witness :
    (renameApi ["r"] fs5w "/x.txt" "y.txt").2 = okResp ∧
    (renameApi ["r"] fs5w "/x.txt" "y.txt").1.lookup (["r", "x.txt"].dropLast ++ ["y.txt"]) =
      some (.file "X1") ∧
    (renameApi ["r"] fs5w "/x.txt" "y.txt").1.lookup ["r", "x.txt"] = none :=
  rename_overwrites ["r"] fs5w "/x.txt" "y.txt" ["r", "x.txt"] "y.txt" "X1" "Y1"
    rfl (by decide) (by decide) (by decide) rfl rfl (by decide) (by decide) (by decide)
    rfl rfl (by decide) rfl

/-- C6 counterexample: the claim says the renamed entry stays in the parent
of the original for every value of the new-name argument; but `pathlib`'s
join makes an absolute `new` replace the parent entirely, and the
destination is never containment-checked: renaming `/r/a.txt` with
`new='/out/x'` succeeds and moves the file to `/out/x`, outside the original
parent and outside Root. -/
theorem rename_escapes_parent_counterexample :
    (renameApi ["r"] fs6 "/a.txt" "/out/x").2 = okResp ∧
    (renameApi ["r"] fs6 "/a.txt" "/out/x").1.lookup ["out", "x"] = some (.file "A") ∧
    (renameApi ["r"] fs6 "/a.txt" "/out/x").1.lookup ["r", "a.txt"] = none ∧
    List.isPrefixOf ["r"] ["out", "x"] = false := by
  refine ⟨rfl, rfl, rfl, by decide⟩

/-- C6 amended: the rename destination is `target.parent / new` under
`pathlib` join semantics; when `new` parses to a single plain segment (no
slash, not absolute, not `'..'`), a successful rename leaves the entry in
the same parent: the destination is `parent ++ [new]`, whose parent is the
parent of the resolved original. -/
theorem rename_same_parent (root : AbsPath) (fs : FS) (p new : String)
    (t : AbsPath) (n : String)
    (h1 : translate_path_safe root fs p = .ok t)
    (ht : t ≠ [])
    (hspec : specialSeg (lastSeg t) = false)
    (hp : resolvePath fs t.dropLast = .ok t.dropLast)
    (hn : pathParts new = [n]) (hnabs : strIsAbs new = false) (hndd : n ≠ "..")
    (hcode : (renameApi root fs p new).2.code = 200) :
    (renameApi root fs p new).1.lookup (t.dropLast ++ [n]) ≠ none ∧
    (t.dropLast ++ [n]).dropLast = t.dropLast := by
  have hjoin : pyJoin t.dropLast new = t.dropLast ++ [n] := by
    rw [pyJoin]
    simp only [hnabs, Bool.false_eq_true, if_false]
    rw [hn]
  have hnmem : n ∈ pathParts new := by
    rw [hn]
    exact List.mem_singleton_self n
  obtain ⟨hn0, hn1, _⟩ := mem_pathParts hnmem
  have hspecn : specialSeg n = false := by
    simp [specialSeg, hn0, hn1, hndd]
  have hdne : (t.dropLast ++ [n] : AbsPath) ≠ [] := by simp
  have hself_src : resolveNoFollow fs t = .ok t := resolveNoFollow_self ht hspec hp
  have hself_dst : resolveNoFollow fs (t.dropLast ++ [n]) = .ok (t.dropLast ++ [n]) := by
    refine resolveNoFollow_self hdne ?_ ?_
    · rw [lastSeg_append_single]
      exact hspecn
    · rw [dropLast_append_single]
      exact hp
  have hlen : t.length = (t.dropLast ++ [n]).length := by
    conv_lhs => rw [← dropLast_append_lastSeg ht]
    simp
  rcases hren : renameAt fs t (t.dropLast ++ [n]) with e | fs'
  · exfalso
    simp only [renameApi, h1, hjoin, hren, errResp] at hcode
    exact absurd hcode (by decide)
  · constructor
    · simp only [renameApi, h1, hjoin, hren]
      exact renameAt_ok_target hself_src hself_dst hlen hren
    · exact dropLast_append_single _ _

/-- C6 amended, witness: renaming `/r/m.txt` to the plain name `n.txt`
leaves the entry under `/r`. -/
theorem rename_same_parent_witness :
    (renameApi ["r"] fs6w "/m.txt" "n.txt").1.lookup
      (["r", "m.txt"].dropLast ++ ["n.txt"]) ≠ none ∧
    ((["r", "m.txt"] : AbsPath).dropLast ++ ["n.txt"]).dropLast =
      (["r", "m.txt"] : AbsPath).dropLast :=
  rename_same_parent ["r"] fs6w "/m.txt" "n.txt" ["r", "m.txt"] "n.txt"
    rfl (by decide) (by decide) rfl rfl (by decide) (by decide) rfl

/-! ### C8 — listing is the sorted immediate children -/

/-- C8: for every directory, the listing is exactly its immediate children
(a permutation of the child names, non-recursive), sorted case-insensitively
by name ascending; a successful `GET /api/list` returns exactly that
sequence, and on a root containing `a.txt`, `B.txt` and directory `c` the
order is `[a.txt, B.txt, c]`. -/
theorem list_children_sorted :
    (∀ (fs : FS) (d : AbsPath),
      (sortedNames fs d).Perm (childNames fs d) ∧ (sortedNames fs d).Sorted lowLe) ∧
    (∀ (root : AbsPath) (fs : FS) (p : String) (t : AbsPath),
      translate_path_safe root fs p = .ok t → isDirAt fs t = true →
      listApi root fs p = .ok (sortedNames fs t)) ∧
    listApi ["r"] fs8 "/" = .ok ["a.txt", "B.txt", "c"] := by
  refine ⟨?_, ?_, ?_⟩
  · intro fs d
    exact ⟨List.perm_insertionSort lowLe (childNames fs d),
      List.sorted_insertionSort lowLe (childNames fs d)⟩
  · intro root fs p t h1 h2
    simp only [listApi, h1, h2, if_true]
  · rfl

/-- C8, witness: the concrete listing of `/` on the fixture root. -/
theorem list_children_sorted_witness :
    listApi ["r"] fs8 "/" = .ok (sortedNames fs8 ["r"]) :=
  list_children_sorted.2.1 ["r"] fs8 "/" ["r"] rfl rfl

/-! ### C9 — save / edit round-trip -/

theorem univNewlines_no_cr : ∀ {l : List Char}, '\r' ∉ l → univNewlines l = l
  | [], _ => rfl
  | [c], h => by
    have hc : c ≠ '\r' := by
      intro e
      apply h
      rw [← e]
      exact List.mem_cons_self c []
    simp [univNewlines, hc]
  | c :: d :: rest, h => by
    have hc : c ≠ '\r' := by
      intro e
      apply h
      rw [← e]
      exact List.mem_cons_self c (d :: rest)
    have ih := univNewlines_no_cr (l := d :: rest) fun e => h (.tail _ e)
    simp [univNewlines, hc, ih]

/-- C9 counterexample: the claim says save-then-edit returns the content
byte for byte for every UTF-8 text; but the edit handler reads in text mode
with the default universal newlines, so saving `"a\r\nb"` reads back as
`"a\nb"` — the `'\r'` is gone. -/
theorem save_edit_crlf_counterexample :
    (saveApi ["r"] fs0 "/notes.txt" "a\r\nb").2.code = 200 ∧
    editApi ["r"] (saveApi ["r"] fs0 "/notes.txt" "a\r\nb").1 "/notes.txt" =
      .ok "a\nb" ∧
    ("a\nb" : String) ≠ "a\r\nb" := by
  refine ⟨rfl, rfl, by decide⟩

/-- C9 amended: a successful `POST /api/save` of UTF-8 text followed by
`GET /api/edit` of the same virtual path returns the saved content with
universal-newline translation applied (`'\r\n'` and `'\r'` become `'\n'`);
for content free of `'\r'` the round-trip is the identity, byte for byte.
(Lean strings are sequences of unicode scalars, so UTF-8 encode/decode is
itself lossless here; surrogate-laden JSON strings, which the save would
reject while encoding, cannot be expressed.) -/
theorem save_edit_roundtrip (root : AbsPath) (fs : FS) (p content : String)
    (h : (saveApi root fs p content).2.code = 200) :
    editApi root (saveApi root fs p content).1 p =
      .ok (String.mk (univNewlines content.data)) ∧
    ('\r' ∉ content.data →
      editApi root (saveApi root fs p content).1 p = .ok content) := by
  have hmain : editApi root (saveApi root fs p content).1 p =
      .ok (String.mk (univNewlines content.data)) := by
    rcases h1 : translate_path_safe root fs p with e | t
    · exfalso
      simp only [saveApi, h1, errResp] at h
      exact absurd h (by decide)
    · rcases h2 : writeFileAt fs t content with e | r
      · exfalso
        simp only [saveApi, h1, h2, errResp] at h
        exact absurd h (by decide)
      · obtain ⟨fs', w⟩ := r
        obtain ⟨hnul, hres, hw0, hsym, hdir, hanc, hfs'⟩ := writeFileAt_ok h2
        have hsave1 : (saveApi root fs p content).1 = fs' := by
          simp only [saveApi, h1, h2]
        rw [hsave1, hfs']
        have hcong : ∀ q, symlinkAt (fs.setNode w (.file content)) q = symlinkAt fs q :=
          symlinkAt_setNode hsym
        rw [editApi]
        rw [translate_congr hcong]
        simp only [h1]
        rw [resolvePath_congr hcong]
        simp only [hres]
        rw [lookup_setNode_self]
  refine ⟨hmain, fun hcr => ?_⟩
  rw [hmain, univNewlines_no_cr hcr]

/-- C9 amended, witness: saving the `'\r'`-free text `hi` to `/notes.txt`
under root `/r` and reading it back via the edit endpoint yields `hi`. -/
theorem save_edit_roundtrip_witness :
    editApi ["r"] (saveApi ["r"] fs0 "/notes.txt" "hi").1 "/notes.txt" = .ok "hi" :=
  (save_edit_roundtrip ["r"] fs0 "/notes.txt" "hi" rfl).2 (by decide)

/-! ### C10 — the authentication predicate -/

theorem dropWhile_until_colon {l : List Char} (hl : l.contains ':' = false)
    (tail : List Char) :
    (l ++ ':' :: tail).dropWhile (fun c => c != ':') = ':' :: tail := by
  induction l with
  | nil => simp [List.dropWhile]
  | cons a as ih =>
    have ha : (':' : Char) ≠ a := by
      intro e
      rw [List.contains, List.elem] at hl
      rw [← e] at hl
      simp at hl
    rw [List.cons_append, List.dropWhile]
    have ha2 : (a != ':') = true := by
      simp [bne]
      exact fun e => ha e.symm
    rw [ha2]
    apply ih
    rw [List.contains, List.elem] at hl
    have hne : (':' == a) = false := by simpa using ha
    rw [hne] at hl
    exact hl

theorem afterFirstColon_userpass {u p : String} (hu : u.data.contains ':' = false) :
    afterFirstColon (u ++ ":" ++ p) = p := by
  have hdata : (u ++ ":" ++ p).data = u.data ++ ':' :: p.data := by
    rw [String.data_append, String.data_append]
    simp
  have hcont : (u ++ ":" ++ p).data.contains ':' = true := by
    rw [hdata]
    exact List.elem_eq_true_of_mem
      (List.mem_append_right _ (List.mem_cons_self _ _))
  rw [afterFirstColon, if_pos hcont, hdata, dropWhile_until_colon hu]
  simp [List.drop]

/-- C10: with no (or an empty, hence falsy) configured password every
request is accepted; with a password `p` configured, a request is accepted
iff it carries a `Basic` credential whose decoded value either equals `p` or
has `p` as the part after its first colon — hence any colon-free username is
accepted with the right password. -/
theorem authenticate_spec :
    (∀ cred, authenticate none cred = true) ∧
    (∀ (p : String) (cred : Option Credential), p ≠ "" →
      (authenticate (some p) cred = true ↔
        ∃ d, cred = some ⟨"Basic", d⟩ ∧ (d = p ∨ afterFirstColon d = p))) ∧
    (∀ u p : String, p ≠ "" → u.data.contains ':' = false →
      authenticate (some p) (some ⟨"Basic", u ++ ":" ++ p⟩) = true) := by
  refine ⟨?_, ?_, ?_⟩
  · intro cred
    rfl
  · intro p cred hp
    simp only [authenticate]
    rw [if_neg hp]
    cases cred with
    | none =>
      constructor
      · intro h
        cases h
      · rintro ⟨d, hd, _⟩
        cases hd
    | some c =>
      obtain ⟨k, d⟩ := c
      show (if k = "Basic" then (d == p || afterFirstColon d == p) else false) = true ↔
        ∃ d', some (⟨k, d⟩ : Credential) = some ⟨"Basic", d'⟩ ∧
          (d' = p ∨ afterFirstColon d' = p)
      by_cases hk : k = "Basic"
      · subst hk
        rw [if_pos rfl]
        constructor
        · intro h
          refine ⟨d, rfl, ?_⟩
          rcases Bool.or_eq_true _ _ |>.mp h with h | h
          · exact .inl (by simpa using h)
          · exact .inr (by simpa using h)
        · rintro ⟨d', hd, hor⟩
          have hdd : d' = d := by
            have h2 := (Option.some.injEq _ _).mp hd
            exact (Credential.mk.injEq _ _ _ _ |>.mp h2).2.symm
          subst hdd
          rcases hor with h | h
          · simp [h]
          · simp [h]
      · rw [if_neg hk]
        constructor
        · intro h
          cases h
        · rintro ⟨d', hd, _⟩
          have h2 := (Option.some.injEq _ _).mp hd
          exact absurd (Credential.mk.injEq _ _ _ _ |>.mp h2).1 hk
  · intro u p hp hu
    simp only [authenticate, if_neg hp]
    rw [afterFirstColon_userpass hu]
    simp

/-- C10, witness: the password `s3cr3t` with username `alice` is accepted;
with no configured password the credential-free request is accepted. -/
theorem authenticate_spec_witness :
    authenticate (some "s3cr3t") (some ⟨"Basic", "alice" ++ ":" ++ "s3cr3t"⟩) = true ∧
    authenticate none none = true :=
  ⟨authenticate_spec.2.2 "alice" "s3cr3t" (by decide) (by decide),
   authenticate_spec.1 none⟩

end FilesPy
